import Mathlib

/-!
Bloom filter and polynomial string hash of `PAtest.cpp`.

A shallow embedding of `polyHash` and of the class `BloomFilter`
(its constructor, `add`, `checkCont`, `clear`, `getFilterArray`).

Conventions of the embedding.

* A `std::string` is the list of its `char` values.  A `char` value is an
  integer: `-128 .. 127` where `char` is signed, `0 .. 255` where it is
  unsigned.  `static_cast<uint16_t>` reduces it modulo `2 ^ 16`.
* `uint16_t` and `uint8_t` values are natural numbers; every assignment to
  such a variable reduces modulo `2 ^ 16`, respectively `2 ^ 8`.  The
  operands of `res * coef + elem` are promoted to `int`; the value stored
  back is the residue modulo `2 ^ 16` of the mathematical result, which is
  also what two's-complement `int` arithmetic stores where the promoted
  product exceeds `INT_MAX` (possible for coefficients above 32767 only).
* `std::vector<uint8_t>` and `std::array<uint16_t, 25>` are lists of
  natural numbers.  An element read is `List.getD _ _ 0`, an element write
  is `List.set`.
* The counted loops of `add` and `checkCont` use a `uint16_t` counter
  that wraps around, so they are embedded with a fuel argument: one unit of
  fuel per evaluation of the loop guard, `none` when the fuel runs out.
* What `polyHash` writes to `std::cerr` is returned next to its value.
-/

namespace PAtest

/-! ## Constants -/

/-- The constant `max_size`. -/
def max_size : Nat := 50

/-- The constant `filter_size`. -/
def filter_size : Nat := 0xFFFF

/-! ## The hash function -/

/-- The conversion `static_cast<uint16_t>(ch)` of a `char` value. -/
def toUInt16 (ch : Int) : Nat := (ch % 65536).toNat

/-- The packing loop of `polyHash`:
`for (i = 0, j = 0; i < inputString.size(); i += 2, ++j) arr[j] = ...`.
The first argument bounds the number of iterations still to run. -/
def packLoop (inputString : List Int) : Nat → Nat → Nat → List Nat → List Nat
  | 0, _, _, arr => arr
  | fuel + 1, i, j, arr =>
    if i < inputString.length then
      packLoop inputString fuel (i + 2) (j + 1)
        (arr.set j
          ((toUInt16 (inputString.getD i 0)
            + (if i + 1 < inputString.length
                then toUInt16 (inputString.getD (i + 1) 0) <<< 8 else 0)) % 65536))
    else arr

/-- The accumulation loop of `polyHash`:
`res = 1; for (elem : arr) res = res * coef + elem;` on `uint16_t`. -/
def accumulate (coef : Nat) (arr : List Nat) : Nat :=
  arr.foldl (fun res elem => (res * coef + elem) % 65536) 1

/-- The text written to `std::cerr` by the length guard of `polyHash`. -/
def limitMessage : String := "You exceed the string limit\n"

/-- The function `polyHash` with its effect on `std::cerr`: the lines
written and the value returned. -/
def polyHashRun (coef : Nat) (inputString : List Int) : List String × Nat :=
  if inputString.length > max_size then
    ([limitMessage], 0)
  else
    let arr := packLoop inputString inputString.length 0 0
      (List.replicate (max_size / 2) 0)
    ([], accumulate coef arr)

/-- The value returned by `polyHash`. -/
def polyHash (coef : Nat) (inputString : List Int) : Nat :=
  (polyHashRun coef inputString).2

/-! ## The filter -/

/-- The data members of the class `BloomFilter`. -/
structure BloomFilter where
  numHash : Nat
  filterArray : List Nat
  deriving DecidableEq, Repr

/-- The constructor `BloomFilter::BloomFilter(uint16_t m)`. -/
def BloomFilter.new (m : Nat) : BloomFilter :=
  ⟨m, List.replicate ((filter_size + 7) / 8) 0⟩

/-- The loop of `BloomFilter::add`, started with the counter at `i`. -/
def BloomFilter.addLoop (numHash : Nat) (input : List Int) :
    Nat → Nat → List Nat → Option (List Nat)
  | 0, _, _ => none
  | fuel + 1, i, filterArray =>
    if i ≤ numHash then
      let hash := polyHash i input
      let byteIndex := (hash / 8) % 65536
      let bitIndex := (hash % 8) % 256
      BloomFilter.addLoop numHash input fuel ((i + 1) % 65536)
        (filterArray.set byteIndex
          ((filterArray.getD byteIndex 0 ||| (1 <<< bitIndex)) % 256))
    else some filterArray

/-- The method `BloomFilter::add`. -/
def BloomFilter.add (fuel : Nat) (bf : BloomFilter) (input : List Int) :
    Option BloomFilter :=
  (BloomFilter.addLoop bf.numHash input fuel 1 bf.filterArray).map
    (fun arr => ⟨bf.numHash, arr⟩)

/-- The loop of `BloomFilter::checkCont`, started with the counter at `i`. -/
def BloomFilter.checkLoop (numHash : Nat) (input : List Int)
    (filterArray : List Nat) : Nat → Nat → Option Bool
  | 0, _ => none
  | fuel + 1, i =>
    if i ≤ numHash then
      let hash := polyHash i input
      let byteIndex := (hash / 8) % 65536
      let bitIndex := (hash % 8) % 256
      if filterArray.getD byteIndex 0 &&& (1 <<< bitIndex) = 0 then
        some false
      else
        BloomFilter.checkLoop numHash input filterArray fuel ((i + 1) % 65536)
    else some true

/-- The method `BloomFilter::checkCont`. -/
def BloomFilter.checkCont (fuel : Nat) (bf : BloomFilter) (input : List Int) :
    Option Bool :=
  BloomFilter.checkLoop bf.numHash input bf.filterArray fuel 1

/-- The method `BloomFilter::clear`. -/
def BloomFilter.clear (bf : BloomFilter) : BloomFilter :=
  ⟨bf.numHash, bf.filterArray.map (fun _ => 0)⟩

/-- The method `BloomFilter::getFilterArray`. -/
def BloomFilter.getFilterArray (bf : BloomFilter) : List Nat :=
  bf.filterArray

/-- A sequence of `add` calls, one for each string of the list, in order. -/
def BloomFilter.addAll (fuel : Nat) (bf : BloomFilter) :
    List (List Int) → Option BloomFilter
  | [] => some bf
  | input :: rest =>
    match BloomFilter.add fuel bf input with
    | none => none
    | some bf1 => BloomFilter.addAll fuel bf1 rest

/-- A call of a mutating method of the filter. -/
inductive Call where
  | add (input : List Int)
  | clear
  deriving DecidableEq, Repr

/-- A sequence of `add` and `clear` calls, in order. -/
def BloomFilter.run (fuel : Nat) (bf : BloomFilter) :
    List Call → Option BloomFilter
  | [] => some bf
  | Call.add input :: rest =>
    match BloomFilter.add fuel bf input with
    | none => none
    | some bf1 => BloomFilter.run fuel bf1 rest
  | Call.clear :: rest => BloomFilter.run fuel (BloomFilter.clear bf) rest

/-- Bit `p` of the bit array: bit `p % 8` of byte `p / 8`. -/
def bitAt (filterArray : List Nat) (p : Nat) : Bool :=
  (filterArray.getD (p / 8) 0).testBit (p % 8)

/-- The effect of one iteration of the loop of `add` whose hash is `h`:
`filterArray[h / 8] |= (1 << (h % 8))`. -/
def setBitAt (filterArray : List Nat) (h : Nat) : List Nat :=
  filterArray.set (h / 8) ((filterArray.getD (h / 8) 0 ||| (1 <<< (h % 8))) % 256)

/-- The hashes of `input` for the coefficients `i, i + 1, ..., i + n - 1`. -/
def hashesFrom (input : List Int) (i n : Nat) : List Nat :=
  (List.range' i n).map (fun c => polyHash c input)

/-! ## The hash as the specification words it -/

/-- Byte `i` of the input as the specification counts it: the character
as a value in `0 .. 255`, and 0 past the end of the string. -/
def specByte (x : List Int) (i : Nat) : Nat := ((x.getD i 0) % 256).toNat

/-- Lane `j` of the specification: `byte(2j) + 256 * byte(2j+1)`. -/
def specLane (x : List Int) (j : Nat) : Nat :=
  specByte x (2 * j) + 256 * specByte x (2 * j + 1)

/-- The accumulation of the specification over a list of lane values:
start from 1, then `accumulator := (accumulator * c + v) mod 65536`. -/
def specAccumulate (c : Nat) (lanes : List Nat) : Nat :=
  lanes.foldl (fun acc v => (acc * c + v) % 65536) 1

/-- The digest of the specification: the accumulation over the
`ceil(n / 2)` lanes packed from the input, and nothing else. -/
def specDigestLanes (c : Nat) (x : List Int) : Nat :=
  specAccumulate c ((List.range ((x.length + 1) / 2)).map (specLane x))

/-- The digest over all 25 slots of the working buffer: the `ceil(n / 2)`
lanes packed from the input followed by zero slots. -/
def specDigestSlots (c : Nat) (x : List Int) : Nat :=
  specAccumulate c
    ((List.range 25).map (fun j => if j < (x.length + 1) / 2 then specLane x j else 0))

/-- The value stored into slot `m` by the packing loop of `polyHash`. -/
def packedLane (inputString : List Int) (m : Nat) : Nat :=
  (toUInt16 (inputString.getD (2 * m) 0)
    + (if 2 * m + 1 < inputString.length
        then toUInt16 (inputString.getD (2 * m + 1) 0) <<< 8 else 0)) % 65536

/-! ## The hash as a transformer of the program state -/

/-- The state outside its arguments that a call of `polyHash` finds and
leaves behind: the text written to `std::cerr`, the filter object of the
caller, and the storage of the automatic variables `arr` and `res` of the
function, which holds whatever the previous call left in it. -/
structure Store where
  cerr : List String
  filter : BloomFilter
  arr : List Nat
  res : Nat
  deriving DecidableEq, Repr

/-- The function `polyHash` as a transformer of the store.  The guard
returns before the buffer is touched; otherwise the declaration
`std::array<uint16_t, max_size / 2> arr{}` sets every slot of the buffer to 0
whatever it held, `uint16_t res = 1` restarts the accumulator, and the two
loops run on that storage and leave their last values in it. -/
def polyHashOn (s : Store) (coef : Nat) (inputString : List Int) : Store × Nat :=
  if inputString.length > max_size then
    (⟨s.cerr ++ [limitMessage], s.filter, s.arr, s.res⟩, 0)
  else
    let arr0 := s.arr.map (fun _ => 0)
    let arr := packLoop inputString inputString.length 0 0 arr0
    let res := arr.foldl (fun res elem => (res * coef + elem) % 65536) 1
    (⟨s.cerr, s.filter, arr, res⟩, res)

/-- The hashes, for the coefficients `1 .. k`, of all the strings of a list,
in the order in which a sequence of `add` calls computes them. -/
def hashesOfAll (k : Nat) : List (List Int) → List Nat
  | [] => []
  | x :: rest => hashesFrom x 1 k ++ hashesOfAll k rest

/-! ## Instrumented loops -/

/-- The loop of `BloomFilter::add` instrumented: next to the array, the
coefficients for which `polyHash` was evaluated so far, in order. -/
def BloomFilter.addLoopTraced (numHash : Nat) (input : List Int) :
    Nat → Nat → List Nat → List Nat → Option (List Nat × List Nat)
  | 0, _, _, _ => none
  | fuel + 1, i, filterArray, coefs =>
    if i ≤ numHash then
      let hash := polyHash i input
      let byteIndex := (hash / 8) % 65536
      let bitIndex := (hash % 8) % 256
      BloomFilter.addLoopTraced numHash input fuel ((i + 1) % 65536)
        (filterArray.set byteIndex
          ((filterArray.getD byteIndex 0 ||| (1 <<< bitIndex)) % 256))
        (coefs ++ [i])
    else some (filterArray, coefs)

/-- The loop of `BloomFilter::checkCont` instrumented: next to the value
returned, the coefficients for which `polyHash` was evaluated so far. -/
def BloomFilter.checkLoopTraced (numHash : Nat) (input : List Int)
    (filterArray : List Nat) : Nat → Nat → List Nat → Option (Bool × List Nat)
  | 0, _, _ => none
  | fuel + 1, i, coefs =>
    if i ≤ numHash then
      let hash := polyHash i input
      let byteIndex := (hash / 8) % 65536
      let bitIndex := (hash % 8) % 256
      if filterArray.getD byteIndex 0 &&& (1 <<< bitIndex) = 0 then
        some (false, coefs ++ [i])
      else
        BloomFilter.checkLoopTraced numHash input filterArray fuel ((i + 1) % 65536)
          (coefs ++ [i])
    else some (true, coefs)

/-! ## The promoted arithmetic of the accumulation step -/

/-- The largest value of the 32-bit type `int`. -/
def INT_MAX : Int := 2147483647

/-- The value of the expression `res * coef + elem` once its `uint16_t`
operands are promoted to `int`, before the conversion back to `uint16_t`. -/
def promotedStep (res coef elem : Nat) : Int :=
  (res : Int) * (coef : Int) + (elem : Int)

/-- The packing loop of `polyHash` instrumented: next to the buffer, one
entry per iteration with the character index `i` read, the slot index `j`
written, and whether the guarded read of character `i + 1` took place. -/
def packLoopTraced (inputString : List Int) :
    Nat → Nat → Nat → List Nat → List (Nat × Nat × Bool) →
      List Nat × List (Nat × Nat × Bool)
  | 0, _, _, arr, accesses => (arr, accesses)
  | fuel + 1, i, j, arr, accesses =>
    if i < inputString.length then
      packLoopTraced inputString fuel (i + 2) (j + 1)
        (arr.set j
          ((toUInt16 (inputString.getD i 0)
            + (if i + 1 < inputString.length
                then toUInt16 (inputString.getD (i + 1) 0) <<< 8 else 0)) % 65536))
        (accesses ++ [(i, j, decide (i + 1 < inputString.length))])
    else (arr, accesses)

/-! ## The hash as a polynomial -/

/-- The content of slot `j` of the working buffer of `polyHash` after the
packing loop: the packed lane where the loop wrote one, 0 elsewhere. -/
def slotAt (x : List Int) (j : Nat) : Nat :=
  if 2 * j < x.length then packedLane x j else 0

/-- The lanes packed from the input, in order. -/
def packedLanes (x : List Int) : List Nat :=
  (List.range ((x.length + 1) / 2)).map (packedLane x)

/-- The value at `c` of the polynomial whose coefficients are the entries of
a list, highest power first. -/
def polySum (c : Nat) : List Nat → Nat
  | [] => 0
  | l :: ls => l * c ^ ls.length + polySum c ls

/-- The polynomial form of the digest:
`(c^25 + sum over j in 0..24 of lane_j * c^(24-j)) mod 65536`, where `lane_j`
is `byte(2j) + 256 * byte(2j+1)` for `j < ceil(n / 2)` and 0 for the remaining
lanes, the bytes counted in `0 .. 255`. -/
def specPolynomialBytes (c : Nat) (x : List Int) : Nat :=
  (c ^ 25
    + ((List.range 25).map
        (fun j => (if j < (x.length + 1) / 2 then specLane x j else 0) * c ^ (24 - j))).sum)
    % 65536

/-! ## Bounds on the hash -/

theorem accumulate_fold_lt (coef : Nat) (arr : List Nat) (init : Nat)
    (h : init < 65536) :
    arr.foldl (fun res elem => (res * coef + elem) % 65536) init < 65536 := by
  induction arr generalizing init with
  | nil => simpa using h
  | cons a rest ih =>
    simp only [List.foldl_cons]
    exact ih _ (Nat.mod_lt _ (by decide))

theorem accumulate_lt (coef : Nat) (arr : List Nat) : accumulate coef arr < 65536 :=
  accumulate_fold_lt coef arr 1 (by decide)

theorem polyHash_lt (coef : Nat) (inputString : List Int) :
    polyHash coef inputString < 65536 := by
  unfold polyHash polyHashRun
  split
  · decide
  · exact accumulate_lt _ _

theorem polyHash_byteIndex (coef : Nat) (inputString : List Int) :
    polyHash coef inputString / 8 % 65536 = polyHash coef inputString / 8 := by
  have := polyHash_lt coef inputString
  omega

theorem polyHash_bitIndex (coef : Nat) (inputString : List Int) :
    polyHash coef inputString % 8 % 256 = polyHash coef inputString % 8 := by
  omega

/-! ## Single bits of the array -/

theorem getD_of_all_zero (arr : List Nat) (hz : ∀ b ∈ arr, b = 0) (i : Nat) :
    arr.getD i 0 = 0 := by
  rw [List.getD_eq_getElem?_getD]
  cases hi : arr[i]? with
  | none => rfl
  | some b => exact hz b (List.getElem?_mem hi)


theorem and_mask_eq_zero_iff (b j : Nat) :
    b &&& (1 <<< j) = 0 ↔ b.testBit j = false := by
  rw [Nat.one_shiftLeft]
  constructor
  · intro h
    have h1 : (b &&& 2 ^ j).testBit j = false := by rw [h]; simp
    simpa [Nat.testBit_two_pow] using h1
  · intro h
    apply Nat.eq_of_testBit_eq
    intro i
    by_cases hij : j = i
    · subst hij
      simp [h]
    · simp [Nat.testBit_two_pow, hij]

theorem setBitAt_length (arr : List Nat) (h : Nat) :
    (setBitAt arr h).length = arr.length := by
  simp [setBitAt]

theorem position_eq_iff (p h : Nat) : p = h ↔ p / 8 = h / 8 ∧ p % 8 = h % 8 := by
  omega

theorem bitAt_setBitAt (arr : List Nat) (h p : Nat) :
    bitAt (setBitAt arr h) p
      = (bitAt arr p || (decide (p = h) && decide (h / 8 < arr.length))) := by
  unfold bitAt setBitAt
  have hp8 : p % 8 < 8 := Nat.mod_lt _ (by decide)
  by_cases hlen : h / 8 < arr.length
  · by_cases hq : h / 8 = p / 8
    · have e256 : (256 : Nat) = 2 ^ 8 := by norm_num
      rw [hq] at hlen ⊢
      simp only [List.getD_eq_getElem?_getD, List.getElem?_set_eq_of_lt _ hlen,
        Option.getD_some, e256, Nat.testBit_mod_two_pow, Nat.testBit_or,
        Nat.one_shiftLeft, Nat.testBit_two_pow, hp8, decide_True, Bool.true_and,
        Bool.and_true]
      congr 1
      have : (h % 8 = p % 8) ↔ p = h := by omega
      simp [this, hlen]
    · have hne : p ≠ h := by
        intro e; apply hq; rw [e]
      simp [List.getElem?_set_ne hq, hne]
  · have hle : arr.length ≤ h / 8 := Nat.le_of_not_lt hlen
    rw [List.set_eq_of_length_le hle]
    simp [hlen]

theorem bitAt_foldl_setBitAt_of_bitAt (hs : List Nat) (arr : List Nat) (p : Nat)
    (hp : bitAt arr p = true) : bitAt (hs.foldl setBitAt arr) p = true := by
  induction hs generalizing arr with
  | nil => simpa using hp
  | cons h rest ih =>
    simp only [List.foldl_cons]
    apply ih
    rw [bitAt_setBitAt, hp]
    rfl

theorem foldl_setBitAt_length (hs : List Nat) (arr : List Nat) :
    (hs.foldl setBitAt arr).length = arr.length := by
  induction hs generalizing arr with
  | nil => rfl
  | cons h rest ih =>
    simp only [List.foldl_cons]
    rw [ih, setBitAt_length]

theorem bitAt_foldl_setBitAt (hs : List Nat) (arr : List Nat) (p : Nat)
    (hall : ∀ h ∈ hs, h / 8 < arr.length) :
    bitAt (hs.foldl setBitAt arr) p = (bitAt arr p || decide (p ∈ hs)) := by
  induction hs generalizing arr with
  | nil => simp
  | cons h rest ih =>
    have hh : h / 8 < arr.length := hall h (List.mem_cons_self _ _)
    have hrest : ∀ x ∈ rest, x / 8 < (setBitAt arr h).length := by
      intro x hx
      rw [setBitAt_length]
      exact hall x (List.mem_cons_of_mem _ hx)
    simp only [List.foldl_cons]
    rw [ih _ hrest, bitAt_setBitAt]
    simp [hh, Bool.or_assoc]

theorem mem_hashesFrom (input : List Int) (i n h : Nat) :
    h ∈ hashesFrom input i n ↔ ∃ c, i ≤ c ∧ c < i + n ∧ h = polyHash c input := by
  unfold hashesFrom
  simp only [List.mem_map, List.mem_range'_1]
  constructor
  · rintro ⟨c, ⟨h1, h2⟩, rfl⟩
    exact ⟨c, h1, h2, rfl⟩
  · rintro ⟨c, h1, h2, rfl⟩
    exact ⟨c, ⟨h1, h2⟩, rfl⟩

theorem hashesFrom_div_lt (input : List Int) (i n : Nat) :
    ∀ h ∈ hashesFrom input i n, h / 8 < 8192 := by
  intro h hh
  obtain ⟨c, _, _, rfl⟩ := (mem_hashesFrom input i n h).1 hh
  have := polyHash_lt c input
  omega

/-! ## The loops of `add` and `checkCont` -/

theorem addLoop_eq (numHash : Nat) (input : List Int) (hk : numHash ≤ 65534) :
    ∀ (fuel i : Nat) (arr : List Nat), i ≤ numHash + 1 → numHash + 1 - i < fuel →
      BloomFilter.addLoop numHash input fuel i arr
        = some ((hashesFrom input i (numHash + 1 - i)).foldl setBitAt arr) := by
  intro fuel
  induction fuel with
  | zero => intro i arr _ h; omega
  | succ fuel ih =>
    intro i arr hi hf
    unfold BloomFilter.addLoop
    by_cases hle : i ≤ numHash
    · have e1 : (i + 1) % 65536 = i + 1 := Nat.mod_eq_of_lt (by omega)
      have e2 : numHash + 1 - i = (numHash + 1 - (i + 1)) + 1 := by omega
      simp only [hle, if_true, polyHash_byteIndex, polyHash_bitIndex, e1]
      rw [ih (i + 1) _ (by omega) (by omega), e2]
      simp [hashesFrom, List.range'_succ, setBitAt]
    · have e0 : numHash + 1 - i = 0 := by omega
      simp [hle, e0, hashesFrom]

theorem checkLoop_eq (numHash : Nat) (input : List Int) (arr : List Nat)
    (hk : numHash ≤ 65534) :
    ∀ (fuel i : Nat), i ≤ numHash + 1 → numHash + 1 - i < fuel →
      BloomFilter.checkLoop numHash input arr fuel i
        = some ((hashesFrom input i (numHash + 1 - i)).all (bitAt arr)) := by
  intro fuel
  induction fuel with
  | zero => intro i _ h; omega
  | succ fuel ih =>
    intro i hi hf
    unfold BloomFilter.checkLoop
    by_cases hle : i ≤ numHash
    · have e1 : (i + 1) % 65536 = i + 1 := Nat.mod_eq_of_lt (by omega)
      have e2 : numHash + 1 - i = (numHash + 1 - (i + 1)) + 1 := by omega
      simp only [hle, if_true, polyHash_byteIndex, polyHash_bitIndex, e1,
        and_mask_eq_zero_iff]
      rw [ih (i + 1) (by omega) (by omega), e2]
      change (if bitAt arr (polyHash i input) = false then some false else _) = _
      cases hb : bitAt arr (polyHash i input) <;>
        simp [hashesFrom, List.range'_succ, hb]
    · have e0 : numHash + 1 - i = 0 := by omega
      simp [hle, e0, hashesFrom]

theorem add_eq (fuel : Nat) (bf : BloomFilter) (input : List Int)
    (hk : bf.numHash ≤ 65534) (hf : bf.numHash < fuel) :
    BloomFilter.add fuel bf input
      = some ⟨bf.numHash, (hashesFrom input 1 bf.numHash).foldl setBitAt bf.filterArray⟩ := by
  unfold BloomFilter.add
  rw [addLoop_eq bf.numHash input hk fuel 1 bf.filterArray (by omega) (by omega)]
  simp

theorem checkCont_eq (fuel : Nat) (bf : BloomFilter) (input : List Int)
    (hk : bf.numHash ≤ 65534) (hf : bf.numHash < fuel) :
    BloomFilter.checkCont fuel bf input
      = some ((hashesFrom input 1 bf.numHash).all (bitAt bf.filterArray)) := by
  unfold BloomFilter.checkCont
  rw [checkLoop_eq bf.numHash input bf.filterArray hk fuel 1 (by omega) (by omega)]
  simp

/-! ## Algebra of the bit-setting step -/

theorem orMask_comm (x a b : Nat) :
    ((x ||| a) % 256 ||| b) % 256 = ((x ||| b) % 256 ||| a) % 256 := by
  have e256 : (256 : Nat) = 2 ^ 8 := by norm_num
  rw [e256]
  apply Nat.eq_of_testBit_eq
  intro i
  simp only [Nat.testBit_mod_two_pow, Nat.testBit_or]
  cases decide (i < 8) <;> cases x.testBit i <;> cases a.testBit i <;>
    cases b.testBit i <;> rfl

theorem orMask_idem (x a : Nat) :
    ((x ||| a) % 256 ||| a) % 256 = (x ||| a) % 256 := by
  have e256 : (256 : Nat) = 2 ^ 8 := by norm_num
  rw [e256]
  apply Nat.eq_of_testBit_eq
  intro i
  simp only [Nat.testBit_mod_two_pow, Nat.testBit_or]
  cases decide (i < 8) <;> cases x.testBit i <;> cases a.testBit i <;> rfl

theorem getD_set_self (arr : List Nat) (q v : Nat) (hq : q < arr.length) :
    (arr.set q v).getD q 0 = v := by
  simp [List.getElem?_set_eq_of_lt _ hq]

theorem getD_set_other (arr : List Nat) (q r v : Nat) (hqr : q ≠ r) :
    (arr.set q v).getD r 0 = arr.getD r 0 := by
  simp [List.getElem?_set_ne hqr]

theorem setBitAt_comm (arr : List Nat) (a b : Nat) :
    setBitAt (setBitAt arr a) b = setBitAt (setBitAt arr b) a := by
  unfold setBitAt
  by_cases hq : a / 8 = b / 8
  · rw [hq]
    by_cases hlen : b / 8 < arr.length
    · rw [getD_set_self _ _ _ hlen, getD_set_self _ _ _ hlen, List.set_set,
        List.set_set, orMask_comm]
    · have hle : arr.length ≤ b / 8 := Nat.le_of_not_lt hlen
      simp [List.set_eq_of_length_le hle]
  · have hq1 : b / 8 ≠ a / 8 := fun e => hq e.symm
    rw [getD_set_other _ _ _ _ hq, getD_set_other _ _ _ _ hq1]
    exact List.set_comm _ _ _ hq

theorem setBitAt_idem (arr : List Nat) (a : Nat) :
    setBitAt (setBitAt arr a) a = setBitAt arr a := by
  unfold setBitAt
  by_cases hlen : a / 8 < arr.length
  · rw [getD_set_self _ _ _ hlen, List.set_set, orMask_idem]
  · have hle : arr.length ≤ a / 8 := Nat.le_of_not_lt hlen
    simp [List.set_eq_of_length_le hle]

theorem setBitAt_foldl_comm (hs : List Nat) (arr : List Nat) (h : Nat) :
    setBitAt (hs.foldl setBitAt arr) h = hs.foldl setBitAt (setBitAt arr h) := by
  induction hs generalizing arr with
  | nil => rfl
  | cons a rest ih =>
    simp only [List.foldl_cons]
    rw [ih, setBitAt_comm]

theorem setBitAt_foldl_absorb (hs : List Nat) (arr : List Nat) (h : Nat)
    (hmem : h ∈ hs) : setBitAt (hs.foldl setBitAt arr) h = hs.foldl setBitAt arr := by
  induction hs generalizing arr with
  | nil => cases hmem
  | cons a rest ih =>
    simp only [List.foldl_cons]
    rcases List.mem_cons.1 hmem with e | hin
    · subst e
      rw [setBitAt_foldl_comm, setBitAt_idem]
    · exact ih _ hin

theorem foldl_setBitAt_absorb (hs gs : List Nat) (arr : List Nat)
    (hsub : ∀ h ∈ gs, h ∈ hs) :
    gs.foldl setBitAt (hs.foldl setBitAt arr) = hs.foldl setBitAt arr := by
  induction gs with
  | nil => rfl
  | cons g rest ih =>
    simp only [List.foldl_cons]
    rw [setBitAt_foldl_absorb hs arr g (hsub g (List.mem_cons_self _ _))]
    exact ih (fun h hh => hsub h (List.mem_cons_of_mem _ hh))

/-! ## Sequences of calls -/

theorem addAll_spec (fuel : Nat) (ys : List (List Int)) :
    ∀ bf : BloomFilter, bf.numHash ≤ 65534 → bf.numHash < fuel →
      ∃ bf1, BloomFilter.addAll fuel bf ys = some bf1 ∧ bf1.numHash = bf.numHash ∧
        bf1.filterArray.length = bf.filterArray.length ∧
        ∀ p, bitAt bf.filterArray p = true → bitAt bf1.filterArray p = true := by
  induction ys with
  | nil => intro bf _ _; exact ⟨bf, rfl, rfl, rfl, fun _ hp => hp⟩
  | cons y rest ih =>
    intro bf hk hf
    obtain ⟨bf2, h2, hn2, hl2, hb2⟩ := ih
      ⟨bf.numHash, (hashesFrom y 1 bf.numHash).foldl setBitAt bf.filterArray⟩ hk hf
    refine ⟨bf2, ?_, hn2, ?_, ?_⟩
    · simp only [BloomFilter.addAll, add_eq fuel bf y hk hf]
      exact h2
    · rw [hl2]
      exact foldl_setBitAt_length _ _
    · intro p hp
      exact hb2 p (bitAt_foldl_setBitAt_of_bitAt _ _ p hp)

theorem new_length (m : Nat) : (BloomFilter.new m).filterArray.length = 8192 := by
  unfold BloomFilter.new
  rw [List.length_replicate]
  rfl

theorem addLoop_length (numHash : Nat) (input : List Int) :
    ∀ (fuel i : Nat) (arr arr1 : List Nat),
      BloomFilter.addLoop numHash input fuel i arr = some arr1 →
        arr1.length = arr.length := by
  intro fuel
  induction fuel with
  | zero => intro i arr arr1 h; simp [BloomFilter.addLoop] at h
  | succ fuel ih =>
    intro i arr arr1 h
    unfold BloomFilter.addLoop at h
    by_cases hle : i ≤ numHash
    · simp only [hle, if_true] at h
      rw [ih _ _ _ h, List.length_set]
    · simp only [hle, if_false] at h
      rw [← Option.some.inj h]

theorem add_frame (fuel : Nat) (bf bf1 : BloomFilter) (input : List Int)
    (h : BloomFilter.add fuel bf input = some bf1) :
    bf1.numHash = bf.numHash ∧ bf1.filterArray.length = bf.filterArray.length := by
  unfold BloomFilter.add at h
  cases hl : BloomFilter.addLoop bf.numHash input fuel 1 bf.filterArray with
  | none => rw [hl] at h; simp at h
  | some arr =>
    rw [hl] at h
    simp only [Option.map_some'] at h
    rw [← Option.some.inj h]
    exact ⟨rfl, addLoop_length _ _ _ _ _ _ hl⟩

theorem run_frame (fuel : Nat) (calls : List Call) :
    ∀ bf bf1 : BloomFilter, BloomFilter.run fuel bf calls = some bf1 →
      bf1.numHash = bf.numHash ∧ bf1.filterArray.length = bf.filterArray.length := by
  induction calls with
  | nil =>
    intro bf bf1 h
    rw [← Option.some.inj h]
    exact ⟨rfl, rfl⟩
  | cons c rest ih =>
    intro bf bf1 h
    cases c with
    | add input =>
      simp only [BloomFilter.run] at h
      cases ha : BloomFilter.add fuel bf input with
      | none => rw [ha] at h; simp at h
      | some bf2 =>
        rw [ha] at h
        obtain ⟨h1, h2⟩ := ih bf2 bf1 h
        obtain ⟨h3, h4⟩ := add_frame fuel bf bf2 input ha
        exact ⟨h1.trans h3, h2.trans h4⟩
    | clear =>
      simp only [BloomFilter.run] at h
      obtain ⟨h1, h2⟩ := ih _ bf1 h
      exact ⟨h1, by rw [h2]; simp [BloomFilter.clear]⟩

theorem run_total (fuel : Nat) (calls : List Call) :
    ∀ bf : BloomFilter, bf.numHash ≤ 65534 → bf.numHash < fuel →
      ∃ bf1, BloomFilter.run fuel bf calls = some bf1 := by
  induction calls with
  | nil => intro bf _ _; exact ⟨bf, rfl⟩
  | cons c rest ih =>
    intro bf hk hf
    cases c with
    | add input =>
      simp only [BloomFilter.run, add_eq fuel bf input hk hf]
      exact ih _ hk hf
    | clear =>
      simp only [BloomFilter.run]
      exact ih _ hk hf

theorem checkCont_of_all_zero (fuel : Nat) (bf : BloomFilter) (x : List Int)
    (hz : ∀ b ∈ bf.filterArray, b = 0) (h1 : 1 ≤ bf.numHash) (hf : 0 < fuel) :
    BloomFilter.checkCont fuel bf x = some false := by
  obtain ⟨f, rfl⟩ : ∃ f, fuel = f + 1 := ⟨fuel - 1, by omega⟩
  unfold BloomFilter.checkCont BloomFilter.checkLoop
  simp only [h1, if_true, getD_of_all_zero _ hz, Nat.zero_and]

/-! ## The length guard -/

theorem polyHashRun_of_long (coef : Nat) (x : List Int) (h : 50 < x.length) :
    polyHashRun coef x = ([limitMessage], 0) := by
  unfold polyHashRun max_size
  rw [if_pos h]

theorem polyHashRun_of_short (coef : Nat) (x : List Int) (h : x.length ≤ 50) :
    polyHashRun coef x
      = ([], accumulate coef (packLoop x x.length 0 0 (List.replicate 25 0))) := by
  unfold polyHashRun max_size
  rw [if_neg (by omega)]

/-! ## The packing loop -/

theorem packLoop_length (x : List Int) :
    ∀ (fuel i j : Nat) (arr : List Nat), (packLoop x fuel i j arr).length = arr.length := by
  intro fuel
  induction fuel with
  | zero => intro i j arr; rfl
  | succ fuel ih =>
    intro i j arr
    unfold packLoop
    split
    · rw [ih, List.length_set]
    · rfl

theorem packLoop_getD (x : List Int) :
    ∀ (fuel j : Nat) (arr : List Nat) (m : Nat),
      x.length ≤ 2 * j + 2 * fuel → x.length ≤ 2 * arr.length →
        (packLoop x fuel (2 * j) j arr).getD m 0
          = if j ≤ m ∧ 2 * m < x.length then packedLane x m else arr.getD m 0 := by
  intro fuel
  induction fuel with
  | zero =>
    intro j arr m hf _
    have hc : ¬ (j ≤ m ∧ 2 * m < x.length) := by omega
    rw [if_neg hc]
    rfl
  | succ fuel ih =>
    intro j arr m hf hlen
    unfold packLoop
    by_cases hi : 2 * j < x.length
    · rw [if_pos hi]
      have e : 2 * j + 2 = 2 * (j + 1) := by ring
      rw [e, ih (j + 1) _ m (by omega) (by rw [List.length_set]; exact hlen)]
      by_cases hjm : j = m
      · subst hjm
        have hc : ¬ (j + 1 ≤ j ∧ 2 * j < x.length) := by omega
        have hr : (if j ≤ j ∧ 2 * j < x.length then packedLane x j else arr.getD j 0)
            = packedLane x j := if_pos ⟨Nat.le_refl _, hi⟩
        rw [hr, if_neg hc, getD_set_self _ _ _ (by omega)]
        rfl
      · rw [getD_set_other _ _ _ _ hjm]
        by_cases hc : j + 1 ≤ m ∧ 2 * m < x.length
        · rw [if_pos hc, if_pos ⟨by omega, hc.2⟩]
        · rw [if_neg hc, if_neg (by omega)]
    · rw [if_neg hi]
      have hc : ¬ (j ≤ m ∧ 2 * m < x.length) := by omega
      rw [if_neg hc]

theorem list_eq_map_getD (l : List Nat) (n : Nat) (hl : l.length = n) :
    l = (List.range n).map (fun m => l.getD m 0) := by
  apply List.ext_getElem
  · simp [hl]
  · intro i h1 h2
    simp [List.getElem?_eq_getElem h1]

theorem packLoop_eq_map (x : List Int) (hx : x.length ≤ 50) :
    packLoop x x.length 0 0 (List.replicate 25 0)
      = (List.range 25).map
          (fun m => if 2 * m < x.length then packedLane x m else 0) := by
  have hl : (packLoop x x.length 0 0 (List.replicate 25 0)).length = 25 := by
    rw [packLoop_length, List.length_replicate]
  rw [list_eq_map_getD _ 25 hl]
  apply List.map_congr_left
  intro m _
  have h := packLoop_getD x x.length 0 (List.replicate 25 0) m (by omega)
    (by rw [List.length_replicate]; omega)
  simp only [Nat.mul_zero] at h
  rw [h]
  by_cases hm : 2 * m < x.length
  · rw [if_pos ⟨Nat.zero_le _, hm⟩, if_pos hm]
  · rw [if_neg (fun hc => hm hc.2), if_neg hm]
    exact getD_of_all_zero _ (fun b hb => List.eq_of_mem_replicate hb) m

/-- The fuel that `polyHashRun` hands to the packing loop is never used up:
any amount of fuel of at least half the input length gives the same buffer. -/
theorem packLoop_fuel_enough (x : List Int) (arr : List Nat) (fuel : Nat)
    (hf : x.length ≤ 2 * fuel) (hl : x.length ≤ 2 * arr.length) :
    packLoop x fuel 0 0 arr = packLoop x x.length 0 0 arr := by
  rw [list_eq_map_getD _ arr.length (packLoop_length x fuel 0 0 arr),
    list_eq_map_getD (packLoop x x.length 0 0 arr) arr.length (packLoop_length x _ 0 0 arr)]
  apply List.map_congr_left
  intro m _
  have h1 := packLoop_getD x fuel 0 arr m (by omega) hl
  have h2 := packLoop_getD x x.length 0 arr m (by omega) hl
  simp only [Nat.mul_zero] at h1 h2
  rw [h1, h2]

/-- Where `char` is signed, a character with a negative value is
sign-extended by `static_cast<uint16_t>`: the packed lane of the one-character
string with value `-1` is 65535, not the byte 255. -/
theorem packedLane_sign_extension :
    packedLane [-1] 0 = 65535 ∧ specLane [-1] 0 = 255 := by
  decide

theorem getD_char_range (x : List Int) (hch : ∀ ch ∈ x, 0 ≤ ch ∧ ch ≤ 255) (i : Nat) :
    0 ≤ x.getD i 0 ∧ x.getD i 0 ≤ 255 := by
  rw [List.getD_eq_getElem?_getD]
  cases hi : x[i]? with
  | none => simp
  | some ch => exact hch ch (List.getElem?_mem hi)

theorem getD_past_end (x : List Int) (i : Nat) (hi : x.length ≤ i) : x.getD i 0 = 0 := by
  rw [List.getD_eq_getElem?_getD, List.getElem?_eq_none hi]
  rfl

theorem packedLane_eq_specLane (x : List Int) (hch : ∀ ch ∈ x, 0 ≤ ch ∧ ch ≤ 255)
    (m : Nat) : packedLane x m = specLane x m := by
  unfold packedLane specLane specByte toUInt16
  obtain ⟨a0, a1⟩ := getD_char_range x hch (2 * m)
  obtain ⟨b0, b1⟩ := getD_char_range x hch (2 * m + 1)
  by_cases hm : 2 * m + 1 < x.length
  · rw [if_pos hm, Nat.shiftLeft_eq]
    omega
  · rw [if_neg hm, getD_past_end x (2 * m + 1) (by omega)]
    omega

/-! ## The claims -/

/-- C1 (no false negatives): for a filter with `k ≤ 65534` hash functions and
an array of 8192 bytes, `add x` followed by `add y` for every `y` of a list
`ys` runs to completion, and `checkCont x` then returns `true`. -/
theorem no_false_negatives (k : Nat) (hk : k ≤ 65534) (bf : BloomFilter)
    (hbf : bf.numHash = k) (hlen : bf.filterArray.length = 8192)
    (x : List Int) (ys : List (List Int)) (fuel : Nat) (hf : k < fuel) :
    ∃ bf1, BloomFilter.addAll fuel bf (x :: ys) = some bf1 ∧
      BloomFilter.checkCont fuel bf1 x = some true := by
  subst hbf
  obtain ⟨bf1, h1, hn1, _, hb1⟩ := addAll_spec fuel (x :: ys) bf hk hf
  obtain ⟨bf2, h2, hn2, _, hb2⟩ := addAll_spec fuel ys
    ⟨bf.numHash, (hashesFrom x 1 bf.numHash).foldl setBitAt bf.filterArray⟩ hk hf
  have e12 : bf1 = bf2 := by
    simp only [BloomFilter.addAll, add_eq fuel bf x hk hf] at h1
    rw [h2] at h1
    exact (Option.some.inj h1).symm
  subst e12
  refine ⟨bf1, h1, ?_⟩
  rw [checkCont_eq fuel bf1 x (by omega) (by omega), hn1]
  congr 1
  rw [List.all_eq_true]
  intro h hh
  apply hb2
  rw [bitAt_foldl_setBitAt _ _ _ (by rw [hlen]; exact hashesFrom_div_lt x 1 bf.numHash)]
  simp [hh]

theorem no_false_negatives_witness :
    ∃ bf1, BloomFilter.addAll 4 (BloomFilter.new 3) ([97, 98, 99] :: [[100], [97, 98]])
        = some bf1 ∧
      BloomFilter.checkCont 4 bf1 [97, 98, 99] = some true :=
  no_false_negatives 3 (by decide) (BloomFilter.new 3) rfl (new_length 3)
    [97, 98, 99] [[100], [97, 98]] 4 (by decide)

/-- C2 (query is the conjunction of the bits): for a filter with `k ≤ 65534`
hash functions, `checkCont x` returns, and it returns `true` exactly when for
every coefficient `i` with `1 ≤ i ≤ k` bit `polyHash i x % 8` of byte
`polyHash i x / 8` of the array is 1. -/
theorem checkCont_iff_all_bits (k : Nat) (hk : k ≤ 65534) (bf : BloomFilter)
    (hbf : bf.numHash = k) (x : List Int) (fuel : Nat) (hf : k < fuel) :
    ∃ b, BloomFilter.checkCont fuel bf x = some b ∧
      (b = true ↔ ∀ i, 1 ≤ i → i ≤ k →
        ((BloomFilter.getFilterArray bf).getD (polyHash i x / 8) 0).testBit
          (polyHash i x % 8) = true) := by
  subst hbf
  refine ⟨_, checkCont_eq fuel bf x hk hf, ?_⟩
  rw [List.all_eq_true]
  constructor
  · intro h i h1 h2
    exact h (polyHash i x) ((mem_hashesFrom x 1 bf.numHash _).2 ⟨i, h1, by omega, rfl⟩)
  · intro h p hp
    obtain ⟨i, h1, h2, rfl⟩ := (mem_hashesFrom x 1 bf.numHash p).1 hp
    exact h i h1 (by omega)

theorem checkCont_iff_all_bits_witness :
    ∃ b, BloomFilter.checkCont 4 (BloomFilter.new 3) [97, 98, 99] = some b ∧
      (b = true ↔ ∀ i, 1 ≤ i → i ≤ 3 →
        ((BloomFilter.getFilterArray (BloomFilter.new 3)).getD
          (polyHash i [97, 98, 99] / 8) 0).testBit (polyHash i [97, 98, 99] % 8) = true) :=
  checkCont_iff_all_bits 3 (by decide) (BloomFilter.new 3) rfl [97, 98, 99] 4 (by decide)

/-- C3 (effect of `add`): for a filter with `k ≤ 65534` hash functions and an
array of 8192 bytes, `add x` returns; afterwards a bit position `p < 65536` is
set exactly when it was set before or `p = polyHash i x` for some `i` with
`1 ≤ i ≤ k`; `numHash` and the array length are unchanged. -/
theorem add_sets_exactly_hash_bits (k : Nat) (hk : k ≤ 65534) (bf : BloomFilter)
    (hbf : bf.numHash = k) (hlen : bf.filterArray.length = 8192)
    (x : List Int) (fuel : Nat) (hf : k < fuel) :
    ∃ bf1, BloomFilter.add fuel bf x = some bf1 ∧
      bf1.numHash = bf.numHash ∧
      bf1.filterArray.length = bf.filterArray.length ∧
      ∀ p, p < 65536 →
        (bitAt bf1.filterArray p = true ↔
          (bitAt bf.filterArray p = true ∨ ∃ i, 1 ≤ i ∧ i ≤ k ∧ p = polyHash i x)) := by
  subst hbf
  refine ⟨_, add_eq fuel bf x hk hf, rfl, foldl_setBitAt_length _ _, ?_⟩
  intro p _
  simp only []
  rw [bitAt_foldl_setBitAt _ _ _ (by rw [hlen]; exact hashesFrom_div_lt x 1 bf.numHash)]
  simp only [Bool.or_eq_true, decide_eq_true_eq, mem_hashesFrom]
  constructor
  · rintro (h | ⟨i, h1, h2, h3⟩)
    · exact Or.inl h
    · exact Or.inr ⟨i, h1, by omega, h3⟩
  · rintro (h | ⟨i, h1, h2, h3⟩)
    · exact Or.inl h
    · exact Or.inr ⟨i, h1, by omega, h3⟩

theorem add_sets_exactly_hash_bits_witness :
    ∃ bf1, BloomFilter.add 4 (BloomFilter.new 3) [97, 98, 99] = some bf1 ∧
      bf1.numHash = (BloomFilter.new 3).numHash ∧
      bf1.filterArray.length = (BloomFilter.new 3).filterArray.length ∧
      ∀ p, p < 65536 →
        (bitAt bf1.filterArray p = true ↔
          (bitAt (BloomFilter.new 3).filterArray p = true ∨
            ∃ i, 1 ≤ i ∧ i ≤ 3 ∧ p = polyHash i [97, 98, 99])) :=
  add_sets_exactly_hash_bits 3 (by decide) (BloomFilter.new 3) rfl (new_length 3)
    [97, 98, 99] 4 (by decide)

/-- C4 (idempotence of `add`): for a filter with `k ≤ 65534` hash functions,
`add x` returns a state on which a second `add x` returns the same state. -/
theorem add_idempotent (k : Nat) (hk : k ≤ 65534) (bf : BloomFilter)
    (hbf : bf.numHash = k) (x : List Int) (fuel : Nat) (hf : k < fuel) :
    ∃ bf1, BloomFilter.add fuel bf x = some bf1 ∧
      BloomFilter.add fuel bf1 x = some bf1 := by
  subst hbf
  refine ⟨_, add_eq fuel bf x hk hf, ?_⟩
  rw [add_eq fuel
    ⟨bf.numHash, (hashesFrom x 1 bf.numHash).foldl setBitAt bf.filterArray⟩ x hk hf]
  simp only []
  rw [foldl_setBitAt_absorb _ _ _ (fun _ hh => hh)]

theorem add_idempotent_witness :
    ∃ bf1, BloomFilter.add 4 (BloomFilter.new 3) [97, 98, 99] = some bf1 ∧
      BloomFilter.add 4 bf1 [97, 98, 99] = some bf1 :=
  add_idempotent 3 (by decide) (BloomFilter.new 3) rfl [97, 98, 99] 4 (by decide)

/-- C5 (clear resets fully): for every state reached from a freshly
constructed `BloomFilter(k)` by a sequence of `add` (and `clear`) calls, after
`clear()` every byte of the array returned by `getFilterArray()` is 0, the
array length and `numHash` are unchanged, and the state is that of a freshly
constructed `BloomFilter(k)`. -/
theorem clear_resets (k : Nat) (calls : List Call) (fuel : Nat) (bf : BloomFilter)
    (h : BloomFilter.run fuel (BloomFilter.new k) calls = some bf) :
    (∀ b ∈ BloomFilter.getFilterArray (BloomFilter.clear bf), b = 0) ∧
      (BloomFilter.clear bf).filterArray.length = bf.filterArray.length ∧
      (BloomFilter.clear bf).numHash = bf.numHash ∧
      BloomFilter.clear bf = BloomFilter.new k := by
  obtain ⟨hn, hl⟩ := run_frame fuel calls _ bf h
  rw [new_length] at hl
  refine ⟨?_, ?_, rfl, ?_⟩
  · intro b hb
    simp only [BloomFilter.getFilterArray, BloomFilter.clear, List.mem_map] at hb
    obtain ⟨_, _, rfl⟩ := hb
    rfl
  · simp [BloomFilter.clear]
  · have e : bf.filterArray.map (fun _ => 0) = List.replicate 8192 0 := by
      rw [List.eq_replicate_iff]
      refine ⟨by rw [List.length_map, hl], ?_⟩
      intro b hb
      obtain ⟨_, _, rfl⟩ := List.mem_map.1 hb
      rfl
    unfold BloomFilter.clear BloomFilter.new
    rw [e, hn]
    rfl

theorem clear_resets_witness :
    ∃ bf, BloomFilter.run 4 (BloomFilter.new 3)
        [Call.add [97, 98, 99], Call.add [100]] = some bf ∧
      BloomFilter.clear bf = BloomFilter.new 3 := by
  obtain ⟨bf, h⟩ := run_total 4 [Call.add [97, 98, 99], Call.add [100]]
    (BloomFilter.new 3) (by decide) (by decide)
  exact ⟨bf, h, (clear_resets 3 _ 4 bf h).2.2.2⟩

/-- C6 (the empty filter rejects): for every `k ≥ 1`, in particular for
`1 ≤ k ≤ 65534`, and every string `x`, `checkCont x` returns `false` on a
freshly constructed `BloomFilter(k)` and on every filter with `k` hash
functions immediately after `clear()`. -/
theorem empty_filter_rejects (k : Nat) (h1 : 1 ≤ k)
    (x : List Int) (fuel : Nat) (hf : 0 < fuel) :
    BloomFilter.checkCont fuel (BloomFilter.new k) x = some false ∧
      ∀ bf : BloomFilter, bf.numHash = k →
        BloomFilter.checkCont fuel (BloomFilter.clear bf) x = some false := by
  constructor
  · apply checkCont_of_all_zero _ _ _ _ h1 hf
    intro b hb
    exact (List.eq_replicate_iff.1 rfl).2 b hb
  · intro bf hbf
    apply checkCont_of_all_zero _ _ _ _ (by rw [← hbf] at h1; exact h1) hf
    intro b hb
    simp only [BloomFilter.clear, List.mem_map] at hb
    obtain ⟨_, _, rfl⟩ := hb
    rfl

theorem empty_filter_rejects_witness :
    BloomFilter.checkCont 4 (BloomFilter.new 3) [97, 98, 99] = some false ∧
      ∀ bf : BloomFilter, bf.numHash = 3 →
        BloomFilter.checkCont 4 (BloomFilter.clear bf) [97, 98, 99] = some false :=
  empty_filter_rejects 3 (by decide) [97, 98, 99] 4 (by decide)

/-- C7 (size of the bit array): `BloomFilter(k)` constructs an array of
`(filter_size + 7) / 8 = 8192` zero bytes, which is the ceiling of
`65536 / 8` and holds `65536` bits; every sequence of `add` and `clear` calls
that returns leaves the length at 8192, and for `k ≤ 65534` every such
sequence returns. -/
theorem filterArray_length_invariant :
    (∀ k : Nat,
      BloomFilter.getFilterArray (BloomFilter.new k) = List.replicate 8192 0 ∧
      (BloomFilter.new k).filterArray.length = (filter_size + 7) / 8 ∧
      (filter_size + 7) / 8 = 8192 ∧ (65536 + 7) / 8 = 8192 ∧
      8 * (BloomFilter.new k).filterArray.length = 65536) ∧
    (∀ (k : Nat) (calls : List Call) (fuel : Nat) (bf : BloomFilter),
      BloomFilter.run fuel (BloomFilter.new k) calls = some bf →
        bf.filterArray.length = 8192) ∧
    (∀ (k : Nat) (calls : List Call) (fuel : Nat), k ≤ 65534 → k < fuel →
      ∃ bf, BloomFilter.run fuel (BloomFilter.new k) calls = some bf ∧
        bf.filterArray.length = 8192) := by
  refine ⟨?_, ?_, ?_⟩
  · intro k
    refine ⟨rfl, ?_, rfl, rfl, ?_⟩
    · rw [new_length]; rfl
    · rw [new_length]
  · intro k calls fuel bf h
    rw [(run_frame fuel calls _ bf h).2, new_length]
  · intro k calls fuel hk hf
    obtain ⟨bf, h⟩ := run_total fuel calls (BloomFilter.new k) hk hf
    exact ⟨bf, h, by rw [(run_frame fuel calls _ bf h).2, new_length]⟩

theorem filterArray_length_invariant_witness :
    ∃ bf, BloomFilter.run 4 (BloomFilter.new 3)
        [Call.add [97, 98, 99], Call.clear, Call.add [100, 101]] = some bf ∧
      bf.filterArray.length = 8192 :=
  filterArray_length_invariant.2.2 3
    [Call.add [97, 98, 99], Call.clear, Call.add [100, 101]] 4 (by decide) (by decide)

/-- C8 (bit-index bounds): for every coefficient `i` and every string `x`,
the byte index `polyHash i x / 8` is below the length 8192 of the array of
a freshly constructed filter and of every state reached from it by `add` and
`clear` calls, and the bit offset `polyHash i x % 8` is at most 7; the
conversions of both to `uint16_t` and `uint8_t` leave them unchanged. -/
theorem bit_index_in_bounds (i : Nat) (x : List Int) :
    (∀ k : Nat, polyHash i x / 8 < (BloomFilter.new k).filterArray.length) ∧
    (∀ (k : Nat) (calls : List Call) (fuel : Nat) (bf : BloomFilter),
      BloomFilter.run fuel (BloomFilter.new k) calls = some bf →
        polyHash i x / 8 < bf.filterArray.length) ∧
    polyHash i x / 8 < 8192 ∧ polyHash i x % 8 ≤ 7 ∧
    polyHash i x / 8 % 65536 = polyHash i x / 8 ∧
    polyHash i x % 8 % 256 = polyHash i x % 8 := by
  have hlt := polyHash_lt i x
  refine ⟨?_, ?_, by omega, by omega, polyHash_byteIndex i x, polyHash_bitIndex i x⟩
  · intro k
    rw [new_length]
    omega
  · intro k calls fuel bf h
    rw [(run_frame fuel calls _ bf h).2, new_length]
    omega

theorem bit_index_in_bounds_witness :
    ∃ bf, BloomFilter.run 4 (BloomFilter.new 3) [Call.add [97, 98, 99]] = some bf ∧
      polyHash 2 [100, 101, 102] / 8 < bf.filterArray.length := by
  obtain ⟨bf, h⟩ := run_total 4 [Call.add [97, 98, 99]]
    (BloomFilter.new 3) (by decide) (by decide)
  exact ⟨bf, h, (bit_index_in_bounds 2 [100, 101, 102]).2.1 3 _ 4 bf h⟩

/-- C9 (boundary on the input length): `polyHash` writes the error message
and returns 0 exactly when the input is longer than 50 characters; every
string of at most 50 characters, in particular of exactly 50, is packed and
accumulated without a message, and every string of 51 characters fails. -/
theorem polyHash_length_guard (coef : Nat) (x : List Int) :
    ((polyHashRun coef x).1 = [limitMessage] ↔ 50 < x.length) ∧
    (50 < x.length → polyHashRun coef x = ([limitMessage], 0) ∧ polyHash coef x = 0) ∧
    (x.length ≤ 50 →
      polyHashRun coef x
        = ([], accumulate coef (packLoop x x.length 0 0 (List.replicate 25 0)))) ∧
    (x.length = 50 → (polyHashRun coef x).1 = []) ∧
    (x.length = 51 → polyHashRun coef x = ([limitMessage], 0)) := by
  have hlong := polyHashRun_of_long coef x
  have hshort := polyHashRun_of_short coef x
  refine ⟨?_, ?_, hshort, ?_, ?_⟩
  · constructor
    · intro h
      by_contra hn
      rw [hshort (by omega)] at h
      simp at h
    · intro h
      rw [hlong h]
  · intro h
    exact ⟨hlong h, by unfold polyHash; rw [hlong h]⟩
  · intro h
    rw [hshort (by omega)]
  · intro h
    exact hlong (by omega)

theorem polyHash_length_guard_witness :
    polyHashRun 3 (List.replicate 51 97) = ([limitMessage], 0) ∧
      (polyHashRun 3 (List.replicate 50 97)).1 = [] :=
  ⟨(polyHash_length_guard 3 (List.replicate 51 97)).2.2.2.2 (by simp),
    (polyHash_length_guard 3 (List.replicate 50 97)).2.2.2.1 (by simp)⟩

/-- C10, counterexample to the claim as stated: for the coefficient 3 and
the two-character string "ab" the accumulation over the single packed lane
gives 25188, while `polyHash` returns 23012. -/
theorem polyHash_ne_specDigestLanes :
    [(97 : Int), 98].length ≤ 50 ∧ specDigestLanes 3 [97, 98] = 25188 ∧
      polyHash 3 [97, 98] = 23012 ∧
      polyHash 3 [97, 98] ≠ specDigestLanes 3 [97, 98] := by
  decide

/-- C10, amended: for every coefficient `c` and every string `x` of length
`n ≤ 50` whose characters have values in `0 .. 255`, `polyHash c x` is the
16-bit wraparound accumulation, started from 1, over all 25 slots of the
working buffer: the `ceil(n / 2)` lanes `byte(2j) + 256 * byte(2j+1)` (missing
high byte 0) in order, followed by `25 - ceil(n / 2)` zero slots. -/
theorem polyHash_eq_specDigestSlots (c : Nat) (x : List Int) (hx : x.length ≤ 50)
    (hch : ∀ ch ∈ x, 0 ≤ ch ∧ ch ≤ 255) :
    polyHash c x = specDigestSlots c x := by
  have hrun := polyHashRun_of_short c x hx
  unfold polyHash
  rw [hrun, packLoop_eq_map x hx]
  show accumulate c _ = specDigestSlots c x
  unfold specDigestSlots specAccumulate accumulate
  congr 1
  apply List.map_congr_left
  intro m _
  by_cases hm : 2 * m < x.length
  · rw [if_pos hm, if_pos (by omega), packedLane_eq_specLane x hch]
  · rw [if_neg hm, if_neg (by omega)]

theorem polyHash_eq_specDigestSlots_witness :
    polyHash 3 [97, 98, 99] = specDigestSlots 3 [97, 98, 99] :=
  polyHash_eq_specDigestSlots 3 [97, 98, 99] (by decide) (by decide)

/-! ## Over-long inputs -/

theorem polyHash_of_long (coef : Nat) (x : List Int) (h : 50 < x.length) :
    polyHash coef x = 0 := by
  unfold polyHash
  rw [polyHashRun_of_long coef x h]

theorem hashesFrom_of_long (x : List Int) (h : 50 < x.length) (i n : Nat) :
    ∀ p ∈ hashesFrom x i n, p = 0 := by
  intro p hp
  obtain ⟨c, _, _, rfl⟩ := (mem_hashesFrom x i n p).1 hp
  exact polyHash_of_long c x h

theorem foldl_setBitAt_same (hs : List Nat) (h : Nat) (hall : ∀ p ∈ hs, p = h)
    (hne : hs ≠ []) (arr : List Nat) : hs.foldl setBitAt arr = setBitAt arr h := by
  induction hs generalizing arr with
  | nil => exact absurd rfl hne
  | cons a rest ih =>
    have ha : a = h := hall a (List.mem_cons_self _ _)
    subst ha
    simp only [List.foldl_cons]
    by_cases hr : rest = []
    · subst hr
      rfl
    · rw [ih (fun p hp => hall p (List.mem_cons_of_mem _ hp)) hr, setBitAt_idem]

theorem hashesFrom_ne_nil (x : List Int) (i n : Nat) (hn : 1 ≤ n) :
    hashesFrom x i n ≠ [] := by
  intro h
  have hl : (hashesFrom x i n).length = n := by simp [hashesFrom]
  rw [h] at hl
  simp at hl
  omega

/-- C11 (over-long input): for a string `x` longer than 50 characters and a
filter with `1 ≤ k ≤ 65534` hash functions and an array of 8192 bytes, every
hash of `x` is 0, `add x` returns and its only effect is `byte 0 |= 1`: bit 0
is set and every other bit, and `numHash`, is unchanged; afterwards
`checkCont y` returns `true` for every string `y` longer than 50 characters. -/
theorem long_input_sets_bit_zero (k : Nat) (h1 : 1 ≤ k) (hk : k ≤ 65534)
    (bf : BloomFilter) (hbf : bf.numHash = k) (hlen : bf.filterArray.length = 8192)
    (x : List Int) (hx : 50 < x.length) (fuel : Nat) (hf : k < fuel) :
    (∀ i, 1 ≤ i → i ≤ k → polyHash i x = 0) ∧
    ∃ bf1, BloomFilter.add fuel bf x = some bf1 ∧
      bf1.numHash = bf.numHash ∧
      bf1.filterArray = bf.filterArray.set 0 ((bf.filterArray.getD 0 0 ||| 1) % 256) ∧
      bitAt bf1.filterArray 0 = true ∧
      (∀ p, p ≠ 0 → bitAt bf1.filterArray p = bitAt bf.filterArray p) ∧
      ∀ y : List Int, 50 < y.length → BloomFilter.checkCont fuel bf1 y = some true := by
  subst hbf
  have harr : (hashesFrom x 1 bf.numHash).foldl setBitAt bf.filterArray
      = setBitAt bf.filterArray 0 :=
    foldl_setBitAt_same _ 0 (hashesFrom_of_long x hx 1 bf.numHash)
      (hashesFrom_ne_nil x 1 bf.numHash h1) _
  have hbit : ∀ p, bitAt (setBitAt bf.filterArray 0) p
      = (bitAt bf.filterArray p || decide (p = 0)) := by
    intro p
    rw [bitAt_setBitAt]
    have : (0 : Nat) / 8 < bf.filterArray.length := by rw [hlen]; decide
    simp [this]
  refine ⟨fun i _ _ => polyHash_of_long i x hx, _, add_eq fuel bf x hk hf, rfl, ?_, ?_, ?_, ?_⟩
  · simp only [harr]
    rfl
  · simp only [harr]
    rw [hbit]
    simp
  · intro p hp
    simp only [harr]
    rw [hbit]
    simp [hp]
  · intro y hy
    rw [checkCont_eq fuel
      ⟨bf.numHash, (hashesFrom x 1 bf.numHash).foldl setBitAt bf.filterArray⟩ y hk hf]
    simp only [harr]
    congr 1
    rw [List.all_eq_true]
    intro h hh
    rw [hashesFrom_of_long y hy 1 bf.numHash h hh, hbit]
    simp

theorem long_input_sets_bit_zero_witness :
    ∃ bf1, BloomFilter.add 4 (BloomFilter.new 3) (List.replicate 51 97) = some bf1 ∧
      bitAt bf1.filterArray 0 = true ∧
      BloomFilter.checkCont 4 bf1 (List.replicate 60 98) = some true := by
  obtain ⟨_, bf1, h1, _, _, h4, _, h6⟩ :=
    long_input_sets_bit_zero 3 (by decide) (by decide) (BloomFilter.new 3) rfl
      (new_length 3) (List.replicate 51 97) (by simp) 4 (by decide)
  exact ⟨bf1, h1, h4, h6 _ (by simp)⟩

/-! ## No hash functions -/

theorem addLoop_zero (input : List Int) (fuel i : Nat) (arr : List Nat)
    (hi : 1 ≤ i) (hf : 0 < fuel) :
    BloomFilter.addLoop 0 input fuel i arr = some arr := by
  obtain ⟨f, rfl⟩ : ∃ f, fuel = f + 1 := ⟨fuel - 1, by omega⟩
  unfold BloomFilter.addLoop
  rw [if_neg (by omega)]

theorem add_zero (fuel : Nat) (bf : BloomFilter) (input : List Int)
    (h0 : bf.numHash = 0) (hf : 0 < fuel) : BloomFilter.add fuel bf input = some bf := by
  unfold BloomFilter.add
  rw [h0, addLoop_zero input fuel 1 _ (Nat.le_refl _) hf]
  cases bf
  simp only [Option.map_some'] at *
  rw [← h0]

theorem addAll_zero (fuel : Nat) (bf : BloomFilter) (h0 : bf.numHash = 0)
    (hf : 0 < fuel) (ys : List (List Int)) : BloomFilter.addAll fuel bf ys = some bf := by
  induction ys with
  | nil => rfl
  | cons y rest ih =>
    simp only [BloomFilter.addAll, add_zero fuel bf y h0 hf]
    exact ih

theorem checkCont_zero (fuel : Nat) (bf : BloomFilter) (x : List Int)
    (h0 : bf.numHash = 0) (hf : 0 < fuel) :
    BloomFilter.checkCont fuel bf x = some true := by
  obtain ⟨f, rfl⟩ : ∃ f, fuel = f + 1 := ⟨fuel - 1, by omega⟩
  unfold BloomFilter.checkCont BloomFilter.checkLoop
  rw [h0, if_neg (by omega)]

/-- C12, counterexample to the claim as stated: on a freshly constructed
`BloomFilter(0)` the loop of `checkCont` runs no iteration and the method
returns `true`, not `false`. -/
theorem checkCont_zero_hashes_matches :
    BloomFilter.checkCont 1 (BloomFilter.new 0) [97, 98, 99] = some true ∧
      BloomFilter.checkCont 1 (BloomFilter.new 0) [97, 98, 99] ≠ some false := by
  constructor
  · rfl
  · intro h
    have h1 : BloomFilter.checkCont 1 (BloomFilter.new 0) [97, 98, 99] = some true := rfl
    rw [h1] at h
    cases h

/-- C12, amended: a filter constructed with `k = 0` stays empty and matches
everything: every sequence of `add` calls returns and leaves the state that of
a freshly constructed `BloomFilter(0)`, all bytes zero, and `checkCont x`
returns `true` for every string `x`. -/
theorem zero_hashes_empty_and_matches (ys : List (List Int)) (x : List Int)
    (fuel : Nat) (hf : 0 < fuel) :
    ∃ bf, BloomFilter.addAll fuel (BloomFilter.new 0) ys = some bf ∧
      bf = BloomFilter.new 0 ∧
      (∀ b ∈ BloomFilter.getFilterArray bf, b = 0) ∧
      BloomFilter.checkCont fuel bf x = some true := by
  refine ⟨_, addAll_zero fuel (BloomFilter.new 0) rfl hf ys, rfl, ?_,
    checkCont_zero fuel _ x rfl hf⟩
  intro b hb
  exact List.eq_of_mem_replicate hb

theorem zero_hashes_empty_and_matches_witness :
    ∃ bf, BloomFilter.addAll 1 (BloomFilter.new 0) [[97, 98, 99], [100]] = some bf ∧
      bf = BloomFilter.new 0 ∧
      (∀ b ∈ BloomFilter.getFilterArray bf, b = 0) ∧
      BloomFilter.checkCont 1 bf [120, 121] = some true :=
  zero_hashes_empty_and_matches [[97, 98, 99], [100]] [120, 121] 1 (by decide)

/-! ## Independence of the hash from the program state -/

theorem map_zero_eq_replicate (arr : List Nat) (n : Nat) (h : arr.length = n) :
    arr.map (fun _ => 0) = List.replicate n 0 := by
  rw [List.eq_replicate_iff]
  refine ⟨by rw [List.length_map, h], ?_⟩
  intro b hb
  obtain ⟨_, _, rfl⟩ := List.mem_map.1 hb
  rfl

theorem polyHashOn_value (s : Store) (hs : s.arr.length = max_size / 2) (coef : Nat)
    (x : List Int) : (polyHashOn s coef x).2 = polyHash coef x := by
  unfold polyHashOn polyHash polyHashRun
  by_cases h : x.length > max_size
  · rw [if_pos h, if_pos h]
  · rw [if_neg h, if_neg h]
    simp only []
    rw [map_zero_eq_replicate s.arr (max_size / 2) hs]
    rfl

theorem polyHashOn_store (s : Store) (hs : s.arr.length = max_size / 2) (coef : Nat)
    (x : List Int) :
    (polyHashOn s coef x).1.arr.length = max_size / 2 ∧
      (polyHashOn s coef x).1.filter = s.filter := by
  unfold polyHashOn
  by_cases h : x.length > max_size
  · rw [if_pos h]
    exact ⟨hs, by simp only []⟩
  · rw [if_neg h]
    refine ⟨?_, by simp only []⟩
    simp only []
    rw [packLoop_length, List.length_map]
    exact hs

/-- A call leaves its last values in the storage of `arr` and `res`: after
hashing "abc" with the coefficient 3, slot 0 holds the lane 25185 and `res`
the hash, so the next call does not start from a zero buffer. -/
theorem polyHashOn_leaves_values :
    (polyHashOn ⟨[], BloomFilter.new 3, List.replicate 25 0, 0⟩ 3 [97, 98, 99]).1.arr.getD 0 0
        = 25185 ∧
      (polyHashOn ⟨[], BloomFilter.new 3, List.replicate 25 0, 0⟩ 3 [97, 98, 99]).1.res
        = 12005 := by
  decide

/-- C13 (determinism of hashing): the value of `polyHash i x` depends on `i`
and `x` only.  Run on any two stores, whatever the text on `std::cerr`, the
state of the filter and the content earlier calls left in the storage of
`arr` and `res`, it returns the same value; it returns that value again when
the call is repeated on the store the first call left, and after any earlier
call `polyHash j y`; and it leaves the filter as it found it. -/
theorem polyHash_deterministic (i : Nat) (x : List Int) (s1 s2 : Store)
    (h1 : s1.arr.length = max_size / 2) (h2 : s2.arr.length = max_size / 2) :
    (polyHashOn s1 i x).2 = (polyHashOn s2 i x).2 ∧
    (polyHashOn (polyHashOn s1 i x).1 i x).2 = (polyHashOn s1 i x).2 ∧
    (∀ (j : Nat) (y : List Int),
      (polyHashOn (polyHashOn s1 j y).1 i x).2 = (polyHashOn s1 i x).2) ∧
    (polyHashOn s1 i x).2 = polyHash i x ∧
    (polyHashOn s1 i x).1.filter = s1.filter := by
  refine ⟨?_, ?_, ?_, polyHashOn_value s1 h1 i x, (polyHashOn_store s1 h1 i x).2⟩
  · rw [polyHashOn_value s1 h1, polyHashOn_value s2 h2]
  · rw [polyHashOn_value _ (polyHashOn_store s1 h1 i x).1, polyHashOn_value s1 h1]
  · intro j y
    rw [polyHashOn_value _ (polyHashOn_store s1 h1 j y).1, polyHashOn_value s1 h1]

theorem polyHash_deterministic_witness :
    (polyHashOn ⟨[], BloomFilter.new 3, List.replicate 25 65535, 7⟩ 3 [97, 98, 99]).2
        = (polyHashOn ⟨[limitMessage], BloomFilter.new 0, List.replicate 25 0, 0⟩ 3
            [97, 98, 99]).2 ∧
      (polyHashOn ⟨[], BloomFilter.new 3, List.replicate 25 65535, 7⟩ 3 [97, 98, 99]).2
        = polyHash 3 [97, 98, 99] :=
  ⟨(polyHash_deterministic 3 [97, 98, 99]
      ⟨[], BloomFilter.new 3, List.replicate 25 65535, 7⟩
      ⟨[limitMessage], BloomFilter.new 0, List.replicate 25 0, 0⟩ rfl rfl).1,
    (polyHash_deterministic 3 [97, 98, 99]
      ⟨[], BloomFilter.new 3, List.replicate 25 65535, 7⟩
      ⟨[limitMessage], BloomFilter.new 0, List.replicate 25 0, 0⟩ rfl rfl).2.2.2.1⟩

/-! ## Order and multiplicity of the strings added -/

theorem foldl_setBitAt_swap (hs gs : List Nat) (arr : List Nat) :
    gs.foldl setBitAt (hs.foldl setBitAt arr) = hs.foldl setBitAt (gs.foldl setBitAt arr) := by
  induction gs generalizing arr with
  | nil => rfl
  | cons g rest ih =>
    simp only [List.foldl_cons]
    rw [setBitAt_foldl_comm, ih]

theorem foldl_setBitAt_same_set (hs gs : List Nat) (arr : List Nat)
    (hset : ∀ h, h ∈ hs ↔ h ∈ gs) : hs.foldl setBitAt arr = gs.foldl setBitAt arr := by
  have e1 : gs.foldl setBitAt (hs.foldl setBitAt arr) = hs.foldl setBitAt arr :=
    foldl_setBitAt_absorb hs gs arr (fun h hh => (hset h).2 hh)
  have e2 : hs.foldl setBitAt (gs.foldl setBitAt arr) = gs.foldl setBitAt arr :=
    foldl_setBitAt_absorb gs hs arr (fun h hh => (hset h).1 hh)
  rw [← e1, foldl_setBitAt_swap, e2]

theorem mem_hashesOfAll (k : Nat) (xs : List (List Int)) (h : Nat) :
    h ∈ hashesOfAll k xs ↔ ∃ x ∈ xs, h ∈ hashesFrom x 1 k := by
  induction xs with
  | nil => simp [hashesOfAll]
  | cons x rest ih =>
    simp only [hashesOfAll, List.mem_append, ih, List.mem_cons, exists_eq_or_imp]

theorem addAll_eq (fuel : Nat) (xs : List (List Int)) :
    ∀ bf : BloomFilter, bf.numHash ≤ 65534 → bf.numHash < fuel →
      BloomFilter.addAll fuel bf xs
        = some ⟨bf.numHash, (hashesOfAll bf.numHash xs).foldl setBitAt bf.filterArray⟩ := by
  induction xs with
  | nil => intro bf _ _; rfl
  | cons x rest ih =>
    intro bf hk hf
    simp only [BloomFilter.addAll, add_eq fuel bf x hk hf]
    rw [ih ⟨bf.numHash, (hashesFrom x 1 bf.numHash).foldl setBitAt bf.filterArray⟩ hk hf]
    simp only [hashesOfAll, List.foldl_append]

/-- C20 (commutativity of `add`): for a filter with `k ≤ 65534` hash
functions, `add x` then `add y` and `add y` then `add x` return the same
state; more generally two sequences of `add` calls over lists with the same
set of strings, whatever their order and multiplicity, return the same
state. -/
theorem add_commutative (k : Nat) (hk : k ≤ 65534) (bf : BloomFilter)
    (hbf : bf.numHash = k) (x y : List Int) (fuel : Nat) (hf : k < fuel) :
    (∃ bx bY bxy, BloomFilter.add fuel bf x = some bx ∧
      BloomFilter.add fuel bx y = some bxy ∧
      BloomFilter.add fuel bf y = some bY ∧
      BloomFilter.add fuel bY x = some bxy) ∧
    (∀ xs ys : List (List Int), (∀ s, s ∈ xs ↔ s ∈ ys) →
      ∃ b, BloomFilter.addAll fuel bf xs = some b ∧
        BloomFilter.addAll fuel bf ys = some b) := by
  subst hbf
  constructor
  · refine ⟨_, _, _, add_eq fuel bf x hk hf,
      add_eq fuel ⟨bf.numHash, (hashesFrom x 1 bf.numHash).foldl setBitAt bf.filterArray⟩
        y hk hf,
      add_eq fuel bf y hk hf, ?_⟩
    rw [add_eq fuel ⟨bf.numHash, (hashesFrom y 1 bf.numHash).foldl setBitAt bf.filterArray⟩
      x hk hf]
    simp only []
    rw [foldl_setBitAt_swap]
  · intro xs ys hset
    refine ⟨_, addAll_eq fuel xs bf hk hf, ?_⟩
    rw [addAll_eq fuel ys bf hk hf]
    congr 2
    apply foldl_setBitAt_same_set
    intro h
    rw [mem_hashesOfAll, mem_hashesOfAll]
    constructor
    · rintro ⟨s, hs, hh⟩
      exact ⟨s, (hset s).2 hs, hh⟩
    · rintro ⟨s, hs, hh⟩
      exact ⟨s, (hset s).1 hs, hh⟩

theorem add_commutative_witness :
    ∃ bx bY bxy, BloomFilter.add 4 (BloomFilter.new 3) [97, 98, 99] = some bx ∧
      BloomFilter.add 4 bx [100, 101] = some bxy ∧
      BloomFilter.add 4 (BloomFilter.new 3) [100, 101] = some bY ∧
      BloomFilter.add 4 bY [97, 98, 99] = some bxy :=
  (add_commutative 3 (by decide) (BloomFilter.new 3) rfl [97, 98, 99] [100, 101] 4
    (by decide)).1

/-! ## Termination of the loops -/

theorem addLoopTraced_fst (numHash : Nat) (input : List Int) :
    ∀ (fuel i : Nat) (arr coefs : List Nat),
      (BloomFilter.addLoopTraced numHash input fuel i arr coefs).map Prod.fst
        = BloomFilter.addLoop numHash input fuel i arr := by
  intro fuel
  induction fuel with
  | zero => intro i arr coefs; rfl
  | succ fuel ih =>
    intro i arr coefs
    unfold BloomFilter.addLoopTraced BloomFilter.addLoop
    by_cases hle : i ≤ numHash
    · simp only [hle, if_true]
      exact ih _ _ _
    · simp only [hle, if_false]
      rfl

theorem checkLoopTraced_fst (numHash : Nat) (input : List Int) (arr : List Nat) :
    ∀ (fuel i : Nat) (coefs : List Nat),
      (BloomFilter.checkLoopTraced numHash input arr fuel i coefs).map Prod.fst
        = BloomFilter.checkLoop numHash input arr fuel i := by
  intro fuel
  induction fuel with
  | zero => intro i coefs; rfl
  | succ fuel ih =>
    intro i coefs
    unfold BloomFilter.checkLoopTraced BloomFilter.checkLoop
    by_cases hle : i ≤ numHash
    · simp only [hle, if_true]
      split
      · rfl
      · exact ih _ _
    · simp only [hle, if_false]
      rfl

theorem addLoopTraced_eq (numHash : Nat) (input : List Int) (hk : numHash ≤ 65534) :
    ∀ (fuel i : Nat) (arr coefs : List Nat), i ≤ numHash + 1 → numHash + 1 - i < fuel →
      BloomFilter.addLoopTraced numHash input fuel i arr coefs
        = some ((hashesFrom input i (numHash + 1 - i)).foldl setBitAt arr,
            coefs ++ List.range' i (numHash + 1 - i)) := by
  intro fuel
  induction fuel with
  | zero => intro i arr coefs _ h; omega
  | succ fuel ih =>
    intro i arr coefs hi hf
    unfold BloomFilter.addLoopTraced
    by_cases hle : i ≤ numHash
    · have e1 : (i + 1) % 65536 = i + 1 := Nat.mod_eq_of_lt (by omega)
      have e2 : numHash + 1 - i = (numHash + 1 - (i + 1)) + 1 := by omega
      simp only [hle, if_true, polyHash_byteIndex, polyHash_bitIndex, e1]
      rw [ih (i + 1) _ _ (by omega) (by omega), e2]
      simp [hashesFrom, List.range'_succ, setBitAt]
    · have e0 : numHash + 1 - i = 0 := by omega
      simp [hle, e0, hashesFrom]

theorem checkLoopTraced_segment (numHash : Nat) (input : List Int) (arr : List Nat)
    (hk : numHash ≤ 65534) :
    ∀ (fuel i : Nat) (coefs : List Nat), i ≤ numHash + 1 → numHash + 1 - i < fuel →
      ∃ b cs, BloomFilter.checkLoopTraced numHash input arr fuel i coefs
          = some (b, coefs ++ cs) ∧
        List.IsPrefix cs (List.range' i (numHash + 1 - i)) ∧
        (b = true → cs = List.range' i (numHash + 1 - i)) := by
  intro fuel
  induction fuel with
  | zero => intro i coefs _ h; omega
  | succ fuel ih =>
    intro i coefs hi hf
    unfold BloomFilter.checkLoopTraced
    by_cases hle : i ≤ numHash
    · have e1 : (i + 1) % 65536 = i + 1 := Nat.mod_eq_of_lt (by omega)
      have e2 : numHash + 1 - i = (numHash + 1 - (i + 1)) + 1 := by omega
      simp only [hle, if_true, e1]
      split
      · refine ⟨false, [i], rfl, ?_, fun h => by cases h⟩
        rw [e2, List.range'_succ]
        exact ⟨_, rfl⟩
      · obtain ⟨b, cs, h1, h2, h3⟩ := ih (i + 1) (coefs ++ [i]) (by omega) (by omega)
        refine ⟨b, i :: cs, ?_, ?_, ?_⟩
        · rw [h1]
          simp
        · rw [e2, List.range'_succ]
          obtain ⟨t, ht⟩ := h2
          exact ⟨t, by rw [← ht]; rfl⟩
        · intro hb
          rw [e2, List.range'_succ, h3 hb]
    · have e0 : numHash + 1 - i = 0 := by omega
      refine ⟨true, [], ?_, ?_, ?_⟩
      · simp [hle]
      · exact List.nil_prefix
      · intro _
        rw [e0]
        rfl

theorem addLoop_never_exits (input : List Int) :
    ∀ (fuel i : Nat) (arr : List Nat), i < 65536 →
      BloomFilter.addLoop 65535 input fuel i arr = none := by
  intro fuel
  induction fuel with
  | zero => intro i arr _; rfl
  | succ fuel ih =>
    intro i arr hi
    unfold BloomFilter.addLoop
    rw [if_pos (by omega)]
    exact ih _ _ (Nat.mod_lt _ (by decide))

/-- C16 (termination): for `k ≤ 65534` the loop of `add` returns after
evaluating the hash for exactly the coefficients `1, 2, ..., k` in that order,
and the loop of `checkCont` returns after evaluating it for an initial
segment of them, all of them when it returns `true`; for `k = 65535` the guard
`i <= numHash` holds for every 16-bit `i`, the counter wraps from 65535 to 0,
and `add` returns for no amount of fuel. -/
theorem loops_terminate (k : Nat) (hk : k ≤ 65534) (bf : BloomFilter)
    (hbf : bf.numHash = k) (x : List Int) (fuel : Nat) (hf : k < fuel) :
    (∃ arr, BloomFilter.addLoopTraced k x fuel 1 bf.filterArray []
          = some (arr, List.range' 1 k) ∧
        BloomFilter.add fuel bf x = some ⟨k, arr⟩) ∧
    (∃ b cs, BloomFilter.checkLoopTraced k x bf.filterArray fuel 1 [] = some (b, cs) ∧
        List.IsPrefix cs (List.range' 1 k) ∧ (b = true → cs = List.range' 1 k) ∧
        BloomFilter.checkCont fuel bf x = some b) ∧
    (∀ i, i < 65536 → i ≤ 65535) ∧ (65535 + 1) % 65536 = 0 ∧
    (∀ (bf1 : BloomFilter) (y : List Int) (fuel1 : Nat), bf1.numHash = 65535 →
      BloomFilter.add fuel1 bf1 y = none) := by
  subst hbf
  refine ⟨?_, ?_, fun i hi => by omega, rfl, ?_⟩
  · have h := addLoopTraced_eq bf.numHash x hk fuel 1 bf.filterArray [] (by omega) (by omega)
    simp only [Nat.add_sub_cancel, List.nil_append] at h
    exact ⟨_, h, add_eq fuel bf x hk hf⟩
  · obtain ⟨b, cs, h1, h2, h3⟩ :=
      checkLoopTraced_segment bf.numHash x bf.filterArray hk fuel 1 [] (by omega) (by omega)
    simp only [Nat.add_sub_cancel, List.nil_append] at h1 h2 h3
    refine ⟨b, cs, h1, h2, h3, ?_⟩
    unfold BloomFilter.checkCont
    rw [← checkLoopTraced_fst bf.numHash x bf.filterArray fuel 1 [], h1]
    rfl
  · intro bf1 y fuel1 h1
    unfold BloomFilter.add
    rw [h1, addLoop_never_exits y fuel1 1 _ (by decide)]
    rfl

theorem loops_terminate_witness :
    (∃ arr, BloomFilter.addLoopTraced 3 [97, 98, 99] 4 1 (BloomFilter.new 3).filterArray []
          = some (arr, List.range' 1 3) ∧
        BloomFilter.add 4 (BloomFilter.new 3) [97, 98, 99] = some ⟨3, arr⟩) ∧
      BloomFilter.add 70000 (BloomFilter.new 65535) [97, 98, 99] = none :=
  ⟨(loops_terminate 3 (by decide) (BloomFilter.new 3) rfl [97, 98, 99] 4 (by decide)).1,
    (loops_terminate 3 (by decide) (BloomFilter.new 3) rfl [97, 98, 99] 4
      (by decide)).2.2.2.2 (BloomFilter.new 65535) [97, 98, 99] 70000 rfl⟩

/-! ## The promoted accumulation step -/

theorem toUInt16_promotedStep (res coef elem : Nat) :
    toUInt16 (promotedStep res coef elem) = (res * coef + elem) % 65536 := by
  unfold toUInt16 promotedStep
  have h : ((res : Int) * (coef : Int) + (elem : Int)) % 65536
      = (((res * coef + elem) % 65536 : Nat) : Int) := by
    push_cast
    rfl
  rw [h, Int.toNat_ofNat]

/-- C17 (no signed overflow): for a coefficient `c ≤ 32767` and 16-bit values
`res` and `elem`, the promoted product `res * c` and the promoted value of
`res * c + elem` lie in `0 .. INT_MAX = 2^31 - 1`, and the value stored back is
`(res * c + elem) mod 65536`, which is the step of the accumulation loop;
every coefficient used by a filter with `k ≤ 255` is at most 32767. -/
theorem accumulation_step_no_overflow (c res elem : Nat) (hc : c ≤ 32767)
    (hres : res < 65536) (helem : elem < 65536) :
    INT_MAX = 2 ^ 31 - 1 ∧
    0 ≤ promotedStep res c 0 ∧ promotedStep res c 0 ≤ INT_MAX ∧
    0 ≤ promotedStep res c elem ∧ promotedStep res c elem ≤ INT_MAX ∧
    toUInt16 (promotedStep res c elem) = (res * c + elem) % 65536 ∧
    (∀ arr : List Nat,
      accumulate c arr = arr.foldl (fun r e => toUInt16 (promotedStep r c e)) 1) ∧
    (∀ k i : Nat, k ≤ 255 → 1 ≤ i → i ≤ k → i ≤ 32767) := by
  have hmul : res * c ≤ 65535 * 32767 := Nat.mul_le_mul (by omega) hc
  have hmulz : ((res * c : Nat) : Int) ≤ 2147385345 := by exact_mod_cast hmul
  have hz : (0 : Int) ≤ ((res * c : Nat) : Int) := Int.ofNat_nonneg _
  have he : (0 : Int) ≤ (elem : Int) ∧ (elem : Int) < 65536 :=
    ⟨Int.ofNat_nonneg _, by exact_mod_cast helem⟩
  unfold promotedStep INT_MAX
  push_cast at hmulz hz
  refine ⟨by norm_num, by simpa using hz,
    by simpa using (by omega : (res : Int) * c ≤ 2147483647),
    by omega, by omega, toUInt16_promotedStep res c elem, ?_, ?_⟩
  · intro arr
    unfold accumulate
    congr 1
  · intro k i hk _ hi
    omega

theorem accumulation_step_no_overflow_witness :
    promotedStep 65535 32767 65535 ≤ INT_MAX ∧
      toUInt16 (promotedStep 65535 32767 65535) = (65535 * 32767 + 65535) % 65536 :=
  ⟨(accumulation_step_no_overflow 32767 65535 65535 (by decide) (by decide)
      (by decide)).2.2.2.2.1,
    (accumulation_step_no_overflow 32767 65535 65535 (by decide) (by decide)
      (by decide)).2.2.2.2.2.1⟩

/-! ## Accesses of the packing loop -/

theorem packLoopTraced_fst (x : List Int) :
    ∀ (fuel i j : Nat) (arr : List Nat) (accesses : List (Nat × Nat × Bool)),
      (packLoopTraced x fuel i j arr accesses).1 = packLoop x fuel i j arr := by
  intro fuel
  induction fuel with
  | zero => intro i j arr accesses; rfl
  | succ fuel ih =>
    intro i j arr accesses
    unfold packLoopTraced packLoop
    split
    · exact ih _ _ _ _
    · rfl

theorem packLoopTraced_length (x : List Int) :
    ∀ (fuel j : Nat) (arr : List Nat) (accesses : List (Nat × Nat × Bool)),
      x.length ≤ 2 * j + 2 * fuel →
        (packLoopTraced x fuel (2 * j) j arr accesses).2.length
          = accesses.length + ((x.length + 1) / 2 - j) := by
  intro fuel
  induction fuel with
  | zero =>
    intro j arr accesses hf
    have e : (x.length + 1) / 2 - j = 0 := by omega
    rw [e]
    rfl
  | succ fuel ih =>
    intro j arr accesses hf
    unfold packLoopTraced
    by_cases hi : 2 * j < x.length
    · rw [if_pos hi]
      have e : 2 * j + 2 = 2 * (j + 1) := by ring
      rw [e, ih (j + 1) _ _ (by omega), List.length_append]
      simp only [List.length_singleton]
      omega
    · rw [if_neg hi]
      have e : (x.length + 1) / 2 - j = 0 := by omega
      rw [e]
      rfl

theorem packLoopTraced_accesses (x : List Int) (P : Nat × Nat × Bool → Prop)
    (hP : ∀ j, 2 * j < x.length → P (2 * j, j, decide (2 * j + 1 < x.length))) :
    ∀ (fuel j : Nat) (arr : List Nat) (accesses : List (Nat × Nat × Bool)),
      (∀ e ∈ accesses, P e) →
        ∀ e ∈ (packLoopTraced x fuel (2 * j) j arr accesses).2, P e := by
  intro fuel
  induction fuel with
  | zero => intro j arr accesses hacc; exact hacc
  | succ fuel ih =>
    intro j arr accesses hacc
    unfold packLoopTraced
    by_cases hi : 2 * j < x.length
    · rw [if_pos hi]
      have e : 2 * j + 2 = 2 * (j + 1) := by ring
      rw [e]
      apply ih
      intro a ha
      rcases List.mem_append.1 ha with h | h
      · exact hacc a h
      · rw [List.mem_singleton.1 h]
        exact hP j hi
    · rw [if_neg hi]
      exact hacc

/-- C15 (working-buffer safety): for a string of length `n ≤ 50` the packing
loop runs `ceil(n / 2)` iterations; in each of them the slot index written is
`j = i / 2 ≤ 24`, below the `max_size / 2 = 25` slots of the buffer, the
character index `i` read is below `n`, and the character `i + 1` is read only
when `i + 1 < n`; the instrumented loop computes the buffer of `polyHash`. -/
theorem packLoop_accesses_in_range (x : List Int) (hx : x.length ≤ 50) :
    max_size / 2 = 25 ∧
    (packLoopTraced x x.length 0 0 (List.replicate (max_size / 2) 0) []).1
      = packLoop x x.length 0 0 (List.replicate (max_size / 2) 0) ∧
    (packLoopTraced x x.length 0 0 (List.replicate (max_size / 2) 0) []).2.length
      = (x.length + 1) / 2 ∧
    ∀ e ∈ (packLoopTraced x x.length 0 0 (List.replicate (max_size / 2) 0) []).2,
      e.2.1 = e.1 / 2 ∧ e.2.1 ≤ 24 ∧
      e.2.1 < (List.replicate (max_size / 2) 0).length ∧
      e.1 < x.length ∧ (e.2.2 = true → e.1 + 1 < x.length) := by
  refine ⟨rfl, packLoopTraced_fst x _ _ _ _ _, ?_, ?_⟩
  · have h := packLoopTraced_length x x.length 0 (List.replicate (max_size / 2) 0) []
      (by omega)
    simpa using h
  · have h := packLoopTraced_accesses x
      (fun e => e.2.1 = e.1 / 2 ∧ e.2.1 ≤ 24 ∧
        e.2.1 < (List.replicate (max_size / 2) 0).length ∧
        e.1 < x.length ∧ (e.2.2 = true → e.1 + 1 < x.length))
      (by
        intro j hj
        refine ⟨?_, ?_, ?_, hj, ?_⟩
        · show j = 2 * j / 2
          omega
        · show j ≤ 24
          omega
        · rw [List.length_replicate]
          show j < 25
          omega
        · intro hg
          exact of_decide_eq_true hg)
      x.length 0 (List.replicate (max_size / 2) 0) [] (by intro e he; cases he)
    simpa using h

theorem packLoop_accesses_in_range_witness :
    (packLoopTraced [97, 98, 99] 3 0 0 (List.replicate (max_size / 2) 0) []).2.length = 2 ∧
    ∀ e ∈ (packLoopTraced [97, 98, 99] 3 0 0 (List.replicate (max_size / 2) 0) []).2,
      e.2.1 = e.1 / 2 ∧ e.2.1 ≤ 24 ∧
      e.2.1 < (List.replicate (max_size / 2) 0).length ∧
      e.1 < 3 ∧ (e.2.2 = true → e.1 + 1 < 3) :=
  ⟨(packLoop_accesses_in_range [97, 98, 99] (by decide)).2.2.1,
    (packLoop_accesses_in_range [97, 98, 99] (by decide)).2.2.2⟩

/-! ## The polynomial form of the hash -/

theorem mod_mul_add_mod (a k s : Nat) :
    (a % 65536 * k + s) % 65536 = (a * k + s) % 65536 :=
  Nat.ModEq.add_right s (Nat.ModEq.mul_right k (Nat.mod_modEq a 65536))

theorem foldl_step_closed (c : Nat) (ls : List Nat) :
    ∀ init : Nat, ls.foldl (fun r e => (r * c + e) % 65536) init % 65536
      = (init * c ^ ls.length + polySum c ls) % 65536 := by
  induction ls with
  | nil => intro init; simp [polySum]
  | cons l rest ih =>
    intro init
    simp only [List.foldl_cons, List.length_cons, polySum]
    rw [ih, mod_mul_add_mod]
    congr 1
    ring

theorem polySum_map_range' (c : Nat) (g : Nat → Nat) :
    ∀ (n s : Nat), polySum c ((List.range' s n).map g)
      = ((List.range' s n).map (fun j => g j * c ^ (s + n - 1 - j))).sum := by
  intro n
  induction n with
  | zero => intro s; rfl
  | succ n ih =>
    intro s
    simp only [List.range'_succ, List.map_cons, polySum, List.sum_cons, List.length_map,
      List.length_range']
    rw [ih (s + 1)]
    have e0 : s + (n + 1) - 1 - s = n := by omega
    rw [e0]
    congr 1
    congr 1
    apply List.map_congr_left
    intro j _
    have e1 : s + 1 + n - 1 - j = s + (n + 1) - 1 - j := by omega
    rw [e1]

theorem polyHash_eq_poly (c : Nat) (x : List Int) (hx : x.length ≤ 50) :
    polyHash c x
      = (c ^ 25 + ((List.range 25).map (fun j => slotAt x j * c ^ (24 - j))).sum)
          % 65536 := by
  have hrun := polyHashRun_of_short c x hx
  unfold polyHash
  rw [hrun, packLoop_eq_map x hx]
  show accumulate c ((List.range 25).map (slotAt x)) = _
  rw [← Nat.mod_eq_of_lt (accumulate_lt c _)]
  unfold accumulate
  rw [foldl_step_closed, List.range_eq_range', polySum_map_range']
  simp only [List.length_map, List.length_range', Nat.one_mul, Nat.zero_add]

theorem slotAt_eq_specLane (x : List Int) (hch : ∀ ch ∈ x, 0 ≤ ch ∧ ch ≤ 255) (j : Nat) :
    slotAt x j = if j < (x.length + 1) / 2 then specLane x j else 0 := by
  unfold slotAt
  by_cases hj : 2 * j < x.length
  · rw [if_pos hj, if_pos (by omega), packedLane_eq_specLane x hch]
  · rw [if_neg hj, if_neg (by omega)]

/-- For characters with values in `0 .. 255` the hash of a string of length
at most 50 is the polynomial form over the bytes. -/
theorem polyHash_eq_specPolynomialBytes (c : Nat) (x : List Int) (hx : x.length ≤ 50)
    (hch : ∀ ch ∈ x, 0 ≤ ch ∧ ch ≤ 255) : polyHash c x = specPolynomialBytes c x := by
  rw [polyHash_eq_poly c x hx]
  unfold specPolynomialBytes
  congr 3
  apply List.map_congr_left
  intro j _
  rw [slotAt_eq_specLane x hch]

/-- C14, the code at the failing input: for the one-character string whose
character is the byte 255, of value `-1` where `char` is signed, the cast
`static_cast<uint16_t>` sign-extends the low byte of lane 0 to 65535 instead
of 255, and `polyHash` with the coefficient 3 returns 29122 where the
polynomial form gives 21186; the high byte of a lane is not affected, its
extension is shifted out of the 16 bits. -/
theorem polyHash_high_char_diverges :
    [(-1 : Int)].length ≤ 50 ∧ specByte [-1] 0 = 255 ∧
      packedLane [-1] 0 = 65535 ∧ specLane [-1] 0 = 255 ∧
      polyHash 3 [-1] = 29122 ∧ specPolynomialBytes 3 [-1] = 21186 ∧
      packedLane [0, -1] 0 = specLane [0, -1] 0 := by
  decide

/-! ## The hash for the coefficients 2 and 1 -/

theorem polyHash_two (x : List Int) (hx : x.length ≤ 50) :
    polyHash 2 x
      = ((List.range' 9 16).map (fun j => slotAt x j * 2 ^ (24 - j))).sum % 65536 := by
  have e25 : List.range 25 = [0, 1, 2, 3, 4, 5, 6, 7, 8, 9, 10, 11, 12, 13, 14, 15, 16,
      17, 18, 19, 20, 21, 22, 23, 24] := by decide
  have e16 : List.range' 9 16 = [9, 10, 11, 12, 13, 14, 15, 16, 17, 18, 19, 20, 21,
      22, 23, 24] := by decide
  rw [polyHash_eq_poly 2 x hx, e25, e16]
  simp only [List.map_cons, List.map_nil, List.sum_cons, List.sum_nil]
  norm_num
  omega

theorem slotAt_of_agree (x y : List Int) (hlen : x.length = y.length)
    (hagree : ∀ i, 18 ≤ i → i < x.length → x.getD i 0 = y.getD i 0)
    (j : Nat) (hj : 9 ≤ j) : slotAt x j = slotAt y j := by
  unfold slotAt packedLane
  rw [← hlen]
  by_cases h0 : 2 * j < x.length
  · rw [if_pos h0, if_pos h0, hagree (2 * j) (by omega) h0]
    by_cases h1 : 2 * j + 1 < x.length
    · rw [if_pos h1, if_pos h1, hagree (2 * j + 1) (by omega) h1]
    · rw [if_neg h1, if_neg h1]
  · rw [if_neg h0, if_neg h0]

theorem slotAt_of_short (x : List Int) (j : Nat) (hj : x.length ≤ 2 * j) :
    slotAt x j = 0 := by
  unfold slotAt
  rw [if_neg (by omega)]

/-- C18 (coefficient 2): two strings of the same length `n ≤ 50` that agree
on every character at index 18 and above have the same hash for the
coefficient 2, and the hash for the coefficient 2 of every string of length at
most 18 is 0. -/
theorem coefficient_two_skips_head :
    (∀ x y : List Int, x.length = y.length → x.length ≤ 50 →
      (∀ i, 18 ≤ i → i < x.length → x.getD i 0 = y.getD i 0) →
        polyHash 2 x = polyHash 2 y) ∧
    (∀ x : List Int, x.length ≤ 18 → polyHash 2 x = 0) := by
  constructor
  · intro x y hlen hx hagree
    have e : (List.range' 9 16).map (fun j => slotAt x j * 2 ^ (24 - j))
        = (List.range' 9 16).map (fun j => slotAt y j * 2 ^ (24 - j)) := by
      apply List.map_congr_left
      intro j hj
      have hj9 : 9 ≤ j := (List.mem_range'_1.1 hj).1
      rw [slotAt_of_agree x y hlen hagree j hj9]
    rw [polyHash_two x hx, polyHash_two y (by omega), e]
  · intro x hx
    rw [polyHash_two x (by omega)]
    have hz : (List.range' 9 16).map (fun j => slotAt x j * 2 ^ (24 - j))
        = (List.range' 9 16).map (fun _ => 0) := by
      apply List.map_congr_left
      intro j hj
      have hj9 : 9 ≤ j := (List.mem_range'_1.1 hj).1
      rw [slotAt_of_short x j (by omega), Nat.zero_mul]
    rw [hz]
    simp

theorem coefficient_two_skips_head_witness :
    polyHash 2 [65, 66, 67, 68, 69, 70, 71, 72, 73, 74, 75, 76, 77, 78, 79, 80, 81, 82,
        120, 121, 122]
      = polyHash 2 [97, 97, 97, 97, 97, 97, 97, 97, 97, 97, 97, 97, 97, 97, 97, 97, 97, 97,
        120, 121, 122] ∧
      polyHash 2 [97, 98, 99] = 0 :=
  ⟨coefficient_two_skips_head.1 _ _ (by decide) (by decide)
      (by
        intro i h1 h2
        have h3 : i < 21 := h2
        interval_cases i <;> rfl),
    coefficient_two_skips_head.2 _ (by decide)⟩

theorem list_sum_map_zero (l : List Nat) (f : Nat → Nat) (h : ∀ j ∈ l, f j = 0) :
    (l.map f).sum = 0 := by
  induction l with
  | nil => rfl
  | cons a rest ih =>
    simp only [List.map_cons, List.sum_cons]
    rw [h a (List.mem_cons_self _ _), ih (fun j hj => h j (List.mem_cons_of_mem _ hj))]

theorem sum_slots_eq_sum_lanes (x : List Int) (hx : x.length ≤ 50) :
    ((List.range 25).map (slotAt x)).sum = (packedLanes x).sum := by
  have hsplit : List.range 25
      = List.range ((x.length + 1) / 2)
        ++ (List.range (25 - (x.length + 1) / 2)).map (fun j => (x.length + 1) / 2 + j) := by
    rw [← List.range_add]
    congr 1
    omega
  have hz : ((List.range (25 - (x.length + 1) / 2)).map
      (fun j => slotAt x ((x.length + 1) / 2 + j))).sum = 0 :=
    list_sum_map_zero _ _ (fun j _ => slotAt_of_short x _ (by omega))
  have hl : (List.range ((x.length + 1) / 2)).map (slotAt x)
      = (List.range ((x.length + 1) / 2)).map (packedLane x) := by
    apply List.map_congr_left
    intro j hj
    have hj1 : j < (x.length + 1) / 2 := List.mem_range.1 hj
    unfold slotAt
    rw [if_pos (by omega)]
  unfold packedLanes
  rw [hsplit, List.map_append, List.sum_append, List.map_map, hl]
  show _ + ((List.range (25 - (x.length + 1) / 2)).map
      (fun j => slotAt x ((x.length + 1) / 2 + j))).sum = _
  rw [hz, Nat.add_zero]

theorem polyHash_one (x : List Int) (hx : x.length ≤ 50) :
    polyHash 1 x = (1 + (packedLanes x).sum) % 65536 := by
  rw [polyHash_eq_poly 1 x hx, ← sum_slots_eq_sum_lanes x hx]
  simp only [Nat.one_pow, Nat.mul_one]

theorem packedLane_append_left (u v : List Int) (hu : u.length % 2 = 0) (j : Nat)
    (hj : j < u.length / 2) : packedLane (u ++ v) j = packedLane u j := by
  unfold packedLane
  have h0 : 2 * j < u.length := by omega
  have h1 : 2 * j + 1 < u.length := by omega
  rw [List.getD_append u v 0 _ h0, List.getD_append u v 0 _ h1, List.length_append,
    if_pos (by omega), if_pos h1]

theorem packedLane_append_right (u v : List Int) (hu : u.length % 2 = 0) (j : Nat) :
    packedLane (u ++ v) (u.length / 2 + j) = packedLane v j := by
  unfold packedLane
  have e0 : 2 * (u.length / 2 + j) - u.length = 2 * j := by omega
  have e1 : 2 * (u.length / 2 + j) + 1 - u.length = 2 * j + 1 := by omega
  rw [List.getD_append_right u v 0 _ (by omega), List.getD_append_right u v 0 _ (by omega),
    e0, e1, List.length_append]
  by_cases h : 2 * j + 1 < v.length
  · rw [if_pos h, if_pos (by omega)]
  · rw [if_neg h, if_neg (by omega)]

theorem packedLanes_append (u v : List Int) (hu : u.length % 2 = 0) :
    packedLanes (u ++ v) = packedLanes u ++ packedLanes v := by
  unfold packedLanes
  have e : ((u ++ v).length + 1) / 2 = u.length / 2 + (v.length + 1) / 2 := by
    rw [List.length_append]
    omega
  have e2 : (u.length + 1) / 2 = u.length / 2 := by omega
  rw [e, e2, List.range_add, List.map_append, List.map_map]
  congr 1
  · apply List.map_congr_left
    intro j hj
    exact packedLane_append_left u v hu j (List.mem_range.1 hj)
  · apply List.map_congr_left
    intro j _
    exact packedLane_append_right u v hu j

theorem polyHash_one_append_comm (u v : List Int) (hu : u.length % 2 = 0)
    (hv : v.length % 2 = 0) (hlen : u.length + v.length ≤ 50) :
    polyHash 1 (u ++ v) = polyHash 1 (v ++ u) := by
  rw [polyHash_one (u ++ v) (by rw [List.length_append]; omega),
    polyHash_one (v ++ u) (by rw [List.length_append]; omega),
    packedLanes_append u v hu, packedLanes_append v u hv, List.sum_append, List.sum_append,
    Nat.add_comm (packedLanes u).sum]

/-- C19 (coefficient 1): for every string `x` of length at most 50,
`polyHash 1 x` is `(1 + sum of the packed 16-bit lanes) mod 65536`; hence for
strings `u`, `v` of even length with `|u| + |v| ≤ 50` the hashes of `u ++ v`
and `v ++ u` for the coefficient 1 are equal, and on a filter with `k = 1`
and an array of 8192 bytes `add (u ++ v)` makes `checkCont (v ++ u)` return
`true`. -/
theorem coefficient_one_lane_sum :
    (∀ x : List Int, x.length ≤ 50 → polyHash 1 x = (1 + (packedLanes x).sum) % 65536) ∧
    (∀ u v : List Int, u.length % 2 = 0 → v.length % 2 = 0 → u.length + v.length ≤ 50 →
      polyHash 1 (u ++ v) = polyHash 1 (v ++ u) ∧
      ∀ (bf : BloomFilter) (fuel : Nat), bf.numHash = 1 →
        bf.filterArray.length = 8192 → 1 < fuel →
          ∃ bf1, BloomFilter.add fuel bf (u ++ v) = some bf1 ∧
            BloomFilter.checkCont fuel bf1 (v ++ u) = some true) := by
  refine ⟨polyHash_one, ?_⟩
  intro u v hu hv hlen
  have hcomm := polyHash_one_append_comm u v hu hv hlen
  refine ⟨hcomm, ?_⟩
  intro bf fuel hk hl hf
  have hk1 : bf.numHash ≤ 65534 := by omega
  have hf1 : bf.numHash < fuel := by omega
  refine ⟨_, add_eq fuel bf (u ++ v) hk1 hf1, ?_⟩
  rw [checkCont_eq fuel
    ⟨bf.numHash, (hashesFrom (u ++ v) 1 bf.numHash).foldl setBitAt bf.filterArray⟩
    (v ++ u) hk1 hf1]
  congr 1
  rw [List.all_eq_true]
  intro h hh
  simp only [] at hh ⊢
  rw [bitAt_foldl_setBitAt _ _ _
    (by rw [hl]; exact hashesFrom_div_lt (u ++ v) 1 bf.numHash)]
  have hmem : h ∈ hashesFrom (u ++ v) 1 bf.numHash := by
    obtain ⟨c, h1, h2, rfl⟩ := (mem_hashesFrom (v ++ u) 1 bf.numHash h).1 hh
    have hc : c = 1 := by omega
    subst hc
    rw [← hcomm]
    exact (mem_hashesFrom (u ++ v) 1 bf.numHash _).2 ⟨1, h1, h2, rfl⟩
  simp [hmem]

theorem coefficient_one_lane_sum_witness :
    polyHash 1 ([97, 98] ++ [99, 100]) = polyHash 1 ([99, 100] ++ [97, 98]) ∧
      ∃ bf1, BloomFilter.add 2 (BloomFilter.new 1) ([97, 98] ++ [99, 100]) = some bf1 ∧
        BloomFilter.checkCont 2 bf1 ([99, 100] ++ [97, 98]) = some true :=
  ⟨(coefficient_one_lane_sum.2 [97, 98] [99, 100] (by decide) (by decide) (by decide)).1,
    (coefficient_one_lane_sum.2 [97, 98] [99, 100] (by decide) (by decide) (by decide)).2
      (BloomFilter.new 1) 2 rfl (new_length 1) (by decide)⟩

end PAtest
